import Mathlib

/-!
# MinesweeperBot: board model, deduction engine, termination check, fallback
selector and cell classifier

A shallow embedding of `MinesweeperBot/main.cpp`.

* `std::vector` is a `List`; an index outside a vector is undefined behaviour in
  the source and is `none` in the embedding, so every function that indexes
  returns an `Option`.
* `int` is `Int`; no arithmetic of the embedded functions leaves the `int`
  range on a board whose dimensions fit an `int`.
* `COLORREF` is a `Nat` (`0x00bbggrr`).
* The generator behind `rand()` is the sequence of the values it returns.
-/

namespace MinesweeperBot

/-! ## Data model (`Cell`, `Coord`, `Field`, `Coords`) -/

/-- The enumeration `Cell::Type`. -/
inductive CellType where
  | UNKNOWN
  | EMPTY
  | NUMBER
  | MINE
  | FLAG
deriving DecidableEq, Repr

/-- The struct `Cell`: a type tag and a number, defaulting to `UNKNOWN` and `0`. -/
structure Cell where
  type : CellType := CellType.UNKNOWN
  number : Int := 0
deriving DecidableEq, Repr

/-- The struct `Coord`: row `y` first, then column `x`. -/
structure Coord where
  y : Int := 0
  x : Int := 0
deriving DecidableEq, Repr

/-- The comparison `Coord::operator<`: rows first, columns on equal rows. -/
def Coord.lt (a b : Coord) : Bool :=
  if a.y = b.y then decide (a.x < b.x) else decide (a.y < b.y)

/-- The type `Field`, `typedef std::vector<std::vector<Cell>> Field`: a list of rows. -/
abbrev Field := List (List Cell)

/-- The type `Coords`, `typedef std::vector<Coord> Coords`. -/
abbrev Coords := List Coord

/-- The read `m_field[c.y][c.x]`; `none` when an index is outside its vector. -/
def cellAt (f : Field) (c : Coord) : Option Cell :=
  if 0 ≤ c.y ∧ 0 ≤ c.x then
    match f[c.y.toNat]? with
    | none => none
    | some row => row[c.x.toNat]?
  else none

/-- The value `m_field[0].size()`. The source evaluates it only after
`coord.y < m_field.size()` has succeeded, that is on a field with a row 0. -/
def width (f : Field) : Nat :=
  match f with
  | [] => 0
  | row :: _ => row.length

/-- The method `Game::IsCorrect`: the short-circuit conjunction of the four comparisons.
The `int` operands compared with a `size_t` are non-negative where the
comparison is reached, so the conversion keeps their value. -/
def IsCorrect (f : Field) (coord : Coord) : Bool :=
  decide (0 ≤ coord.y) && decide (coord.y < (f.length : Int)) &&
  decide (0 ≤ coord.x) && decide (coord.x < (width f : Int))

/-! ## `Game::GetCountOfType` -/

/-- The values taken by `dy` and by `dx`. -/
def deltas : List Int := [-1, 0, 1]

/-- The iterations of the two nested loops, `dy` outermost, as pairs `(dy, dx)`. -/
def shifts : List (Int × Int) :=
  deltas.flatMap fun dy => deltas.map fun dx => (dy, dx)

/-- The two nested loops of `GetCountOfType`, run over the remaining iterations
with the vector `unknowns` built so far. -/
def countLoop (f : Field) (coord : Coord) (t : CellType) :
    List (Int × Int) → Coords → Option Coords
  | [], unknowns => some unknowns
  | (dy, dx) :: rest, unknowns =>
    if dy = 0 ∧ dx = 0 then countLoop f coord t rest unknowns
    else
      let shifted : Coord := ⟨coord.y + dy, coord.x + dx⟩
      if IsCorrect f shifted then
        match cellAt f shifted with
        | none => none
        | some cell =>
          if cell.type = t then countLoop f coord t rest (unknowns ++ [shifted])
          else countLoop f coord t rest unknowns
      else countLoop f coord t rest unknowns

/-- The method `Game::GetCountOfType`: the neighbours of `coord` that pass `IsCorrect` and
hold a cell of type `t`, in loop order. -/
def GetCountOfType (f : Field) (coord : Coord) (t : CellType) : Option Coords :=
  countLoop f coord t shifts []

/-! ## `Game::RemoveDuplicates` -/

/-- The order `!(b < a)` induced by `Coord::operator<`. -/
def Coord.le (a b : Coord) : Prop := Coord.lt b a = false

instance Coord.decidableLe : DecidableRel Coord.le := fun a b =>
  inferInstanceAs (Decidable (Coord.lt b a = false))

/-- The call `std::sort(coords.begin(), coords.end())` with `Coord::operator<`. Two
coordinates that are equivalent for `operator<` are equal, so every sorting
algorithm returns the same vector; insertion sort stands for it. -/
def sortCoords (coords : Coords) : Coords := List.insertionSort Coord.le coords

/-- The loop of `std::unique`: `last` is the element kept last, an element equal
to it (`Coord::operator==`) is dropped. -/
def uniqueLoop (last : Coord) : Coords → Coords
  | [] => []
  | c :: rest =>
    if c.x = last.x ∧ c.y = last.y then uniqueLoop last rest
    else c :: uniqueLoop c rest

/-- The statement `coords.erase(std::unique(coords.begin(), coords.end()), coords.end())`. -/
def uniqueCoords : Coords → Coords
  | [] => []
  | c :: rest => c :: uniqueLoop c rest

/-- The method `Game::RemoveDuplicates`: sort, then drop adjacent repeats. -/
def RemoveDuplicates (coords : Coords) : Coords := uniqueCoords (sortCoords coords)

/-! ## `Game::GetCornerMines` and `Game::GetFreeMoves` -/

/-- The index pairs `(y, x)` visited by
`for (y < m_field.size()) for (x < m_field[y].size())`, in order. -/
def cells (f : Field) : List (Nat × Nat) :=
  (List.range f.length).flatMap fun y =>
    (List.range (f.getD y []).length).map fun x => (y, x)

/-- Runs a loop body over the iterations `l`, threading the accumulator; an
undefined read in the body makes the whole run undefined. -/
def forEach {α : Type} (body : α → Coords → Option Coords) : List α → Coords → Option Coords
  | [], acc => some acc
  | a :: rest, acc =>
    match body a acc with
    | none => none
    | some acc' => forEach body rest acc'

/-- The body of the loops of `GetCornerMines` at `(y, x)`. The comparison
`unknowns.size() + flags.size() == number` converts the `int` to `size_t`; the
conversion is injective on `int` and the sum is at most 16, so the comparison
holds exactly when the two are the same integer. -/
def cornerBody (f : Field) (p : Nat × Nat) (mines : Coords) : Option Coords :=
  match cellAt f ⟨p.1, p.2⟩ with
  | none => none
  | some cell =>
    if cell.type = CellType.NUMBER then
      match GetCountOfType f ⟨p.1, p.2⟩ CellType.UNKNOWN,
            GetCountOfType f ⟨p.1, p.2⟩ CellType.FLAG with
      | some unknowns, some flags =>
        if ((unknowns.length + flags.length : Nat) : Int) = cell.number then
          some (mines ++ unknowns)
        else some mines
      | _, _ => none
    else some mines

/-- The body of the loops of `GetFreeMoves` at `(y, x)`. -/
def freeBody (f : Field) (p : Nat × Nat) (moves : Coords) : Option Coords :=
  match cellAt f ⟨p.1, p.2⟩ with
  | none => none
  | some cell =>
    if cell.type = CellType.NUMBER then
      match GetCountOfType f ⟨p.1, p.2⟩ CellType.UNKNOWN,
            GetCountOfType f ⟨p.1, p.2⟩ CellType.FLAG with
      | some unknowns, some flags =>
        if ((flags.length : Nat) : Int) = cell.number then
          some (moves ++ unknowns)
        else some moves
      | _, _ => none
    else some moves

/-- The method `Game::GetCornerMines`: the final content of the in-out vector `mines`. -/
def GetCornerMines (f : Field) (mines : Coords) : Option Coords :=
  (forEach (cornerBody f) (cells f) mines).map RemoveDuplicates

/-- The method `Game::GetFreeMoves`: the final content of the in-out vector `moves`. -/
def GetFreeMoves (f : Field) (moves : Coords) : Option Coords :=
  (forEach (freeBody f) (cells f) moves).map RemoveDuplicates

/-! ## `Game::IsOver` -/

/-- The inner range-for of `IsOver` over one row, from the current
`unknownCount`; `none` stands for the `return true` at a cell of type `MINE`,
which leaves both loops. The counter is an `int` that counts cells and is taken
not to overflow. -/
def overRow : List Cell → Int → Option Int
  | [], unknownCount => some unknownCount
  | cell :: rest, unknownCount =>
    let counted := if cell.type = CellType.UNKNOWN then unknownCount + 1 else unknownCount
    if cell.type = CellType.MINE then none else overRow rest counted

/-- The outer range-for of `IsOver` over the rows, ending in
`return unknownCount == 0`. -/
def overRows : List (List Cell) → Int → Bool
  | [], unknownCount => decide (unknownCount = 0)
  | row :: rest, unknownCount =>
    match overRow row unknownCount with
    | none => true
    | some counted => overRows rest counted

/-- The method `Game::IsOver`: false on a field without rows, else the result of the loops. -/
def IsOver (f : Field) : Bool :=
  if f.isEmpty then false else overRows f 0

/-! ## `Window::ScanCell` -/

/-- The macro `RGB(r, g, b)` of the Windows headers on byte arguments: the
`COLORREF` value `0x00bbggrr`. -/
def RGB (r g b : Nat) : Nat := r + g * 256 + b * 65536

def BLACK : Nat := RGB 0 0 0
def WHITE : Nat := RGB 255 255 255
def RED : Nat := RGB 255 0 0
def GREEN : Nat := RGB 0 128 0
def BLUE : Nat := RGB 0 0 255
def TEAL : Nat := RGB 0 128 128
def MAROON : Nat := RGB 128 0 0
def NAVY : Nat := RGB 0 0 128
def GREY : Nat := RGB 128 128 128
def LIGHTGREY : Nat := RGB 192 192 192

/-- The constant `Window::CELL_SIZE`. -/
def CELL_SIZE : Nat := 16

/-- The constant `Window::CELL_BORDER`. -/
def CELL_BORDER : Nat := 2

/-- The read `pixels[i][j]`; `none` when an index is outside its vector. -/
def pixelAt (pixels : List (List Nat)) (i j : Nat) : Option Nat :=
  match pixels[i]? with
  | none => none
  | some pixelRow => pixelRow[j]?

/-- The values taken by `cellX` and by `cellY`:
`CELL_BORDER, ..., CELL_SIZE - CELL_BORDER - 1`. -/
def insetRange : List Nat := List.range' CELL_BORDER (CELL_SIZE - CELL_BORDER - CELL_BORDER)

/-- The iterations of the two counting loops of `ScanCell`, `cellX` outermost,
as pairs `(cellX, cellY)`. -/
def interior : List (Nat × Nat) :=
  insetRange.flatMap fun cellX => insetRange.map fun cellY => (cellX, cellY)

/-- The counting loops of `ScanCell`: the pixels
`pixels[offsetY + cellY][offsetX + cellX]` read over the iterations, in order.
The map `colorsCount` of the source holds, for each colour, how often it occurs
among them. -/
def readSamples (pixels : List (List Nat)) (offsetY offsetX : Nat) :
    List (Nat × Nat) → Option (List Nat)
  | [] => some []
  | (cellX, cellY) :: rest =>
    match pixelAt pixels (offsetY + cellY) (offsetX + cellX) with
    | none => none
    | some colour =>
      match readSamples pixels offsetY offsetX rest with
      | none => none
      | some samples => some (colour :: samples)

/-- The chain of tests of `ScanCell` once the pixels are read: `topLeft` is
`pixels[offsetY][offsetX]` and `colorsCount c` the number of interior samples of
colour `c`. A returned aggregate that names only the type leaves `number` at its
default `0`. -/
def classify (topLeft : Nat) (colorsCount : Nat → Nat) : Cell :=
  let isMineOrNumberOrEmpty : Bool := topLeft != WHITE
  if colorsCount BLACK ≠ 0 ∧ colorsCount RED ≠ 0 then ⟨CellType.FLAG, 0⟩
  else if isMineOrNumberOrEmpty then
    if colorsCount BLACK ≠ 0 ∧ colorsCount WHITE ≠ 0 then ⟨CellType.MINE, 0⟩
    else if colorsCount BLUE ≠ 0 then ⟨CellType.NUMBER, 1⟩
    else if colorsCount GREEN ≠ 0 then ⟨CellType.NUMBER, 2⟩
    else if colorsCount RED ≠ 0 then ⟨CellType.NUMBER, 3⟩
    else if colorsCount NAVY ≠ 0 then ⟨CellType.NUMBER, 4⟩
    else if colorsCount MAROON ≠ 0 then ⟨CellType.NUMBER, 5⟩
    else if colorsCount TEAL ≠ 0 then ⟨CellType.NUMBER, 6⟩
    else if colorsCount BLACK ≠ 0 then ⟨CellType.NUMBER, 7⟩
    else if colorsCount GREY ≠ 0 then ⟨CellType.NUMBER, 8⟩
    else ⟨CellType.EMPTY, 0⟩
  else ⟨CellType.UNKNOWN, 0⟩

/-- The method `Window::ScanCell` for the cell in row `y` and column `x` (both loop
counters that start at `0`): reads the top-left pixel of the block and the
interior samples, then classifies. -/
def ScanCell (pixels : List (List Nat)) (y x : Nat) : Option Cell :=
  let offsetX := x * CELL_SIZE
  let offsetY := y * CELL_SIZE
  match pixelAt pixels offsetY offsetX with
  | none => none
  | some topLeft =>
    match readSamples pixels offsetY offsetX interior with
    | none => none
    | some samples => some (classify topLeft fun colour => samples.count colour)


/-! ## `Game::UpdateMines` -/

/-- The write `m_field[coord.y][coord.x] = cell`; `none` when an index is outside
its vector (a negative `int` index converts to a `size_t` beyond every size). -/
def setCell (f : Field) (coord : Coord) (cell : Cell) : Option Field :=
  if 0 ≤ coord.y ∧ 0 ≤ coord.x then
    match f[coord.y.toNat]? with
    | none => none
    | some row =>
      if coord.x.toNat < row.length then
        some (f.set coord.y.toNat (row.set coord.x.toNat cell))
      else none
  else none

/-- The method `Game::UpdateMines`: the field after the range-for has written a
cell of type `FLAG`, with `number` at its default `0`, at every listed
coordinate. -/
def UpdateMines (f : Field) : Coords → Option Field
  | [] => some f
  | coord :: rest =>
    match setCell f coord ⟨CellType.FLAG, 0⟩ with
    | none => none
    | some updated => UpdateMines updated rest

/-! ## `Game::RandomMove` -/

/-- The loop of `RandomMove`. The global generator behind `rand()` is the
sequence `rand` of the values it returns together with the number `calls` of
calls made so far; `remaining` is `height * width - attempt`, and `move` the
value of the local variable. The `break` at a cell of type `UNKNOWN` returns. -/
def randomLoop (f : Field) (height width : Int) (rand : Nat → Nat) :
    Nat → Nat → Coord → Option Coord
  | 0, _, move => some move
  | remaining + 1, calls, _ =>
    let move : Coord := ⟨(rand calls : Int) % height, (rand (calls + 1) : Int) % width⟩
    match cellAt f move with
    | none => none
    | some cell =>
      if cell.type = CellType.UNKNOWN then some move
      else randomLoop f height width rand remaining (calls + 2) move

/-- The method `Game::RandomMove` with the generator as an argument. The read
`m_field[0]` is outside the vector on a field without rows. The loop runs
`height * width` times, not at all when the product is zero, and `move` starts
as the default `Coord`. -/
def RandomMove (f : Field) (rand : Nat → Nat) : Option Coord :=
  match f with
  | [] => none
  | row :: _ =>
    let height : Int := (f.length : Int)
    let width : Int := (row.length : Int)
    randomLoop f height width rand (height * width).toNat 0 ⟨0, 0⟩


/-! ## Notions used to state the properties -/

/-- A rectangular board: every row has the length of row 0. -/
def Rectangular (f : Field) : Prop := ∀ row ∈ f, row.length = width f

instance Rectangular.decidable (f : Field) : Decidable (Rectangular f) :=
  inferInstanceAs (Decidable (∀ row ∈ f, row.length = width f))

/-- The type of the cell at `c`, when `c` is on the board. -/
def typeAt (f : Field) (c : Coord) : Option CellType :=
  (cellAt f c).map fun cell => cell.type

/-- The eight Moore neighbours of a coordinate, on the board or not. -/
def neighbours (c : Coord) : Coords :=
  [⟨c.y - 1, c.x - 1⟩, ⟨c.y - 1, c.x⟩, ⟨c.y - 1, c.x + 1⟩,
   ⟨c.y, c.x - 1⟩, ⟨c.y, c.x + 1⟩,
   ⟨c.y + 1, c.x - 1⟩, ⟨c.y + 1, c.x⟩, ⟨c.y + 1, c.x + 1⟩]

/-- The in-bounds Moore neighbours of `c` whose cell has type `t`. -/
def neighboursOfType (f : Field) (c : Coord) (t : CellType) : Coords :=
  (neighbours c).filter fun s => decide (typeAt f s = some t)


/-- What the certain-mine rule appends at the cell `(y, x)` of a rectangular
board: the `UNKNOWN` neighbours of a `NUMBER` cell whose number equals the count
of its `UNKNOWN` and `FLAG` neighbours, nothing otherwise. -/
def cornerAdd (f : Field) (p : Nat × Nat) : Coords :=
  match cellAt f ⟨p.1, p.2⟩ with
  | none => []
  | some cell =>
    if cell.type = CellType.NUMBER ∧
        (((neighboursOfType f ⟨p.1, p.2⟩ CellType.UNKNOWN).length +
          (neighboursOfType f ⟨p.1, p.2⟩ CellType.FLAG).length : Nat) : Int) = cell.number then
      neighboursOfType f ⟨p.1, p.2⟩ CellType.UNKNOWN
    else []

/-- What the certain-safe rule appends at the cell `(y, x)` of a rectangular
board: the `UNKNOWN` neighbours of a `NUMBER` cell whose number equals the count
of its `FLAG` neighbours, nothing otherwise. -/
def freeAdd (f : Field) (p : Nat × Nat) : Coords :=
  match cellAt f ⟨p.1, p.2⟩ with
  | none => []
  | some cell =>
    if cell.type = CellType.NUMBER ∧
        (((neighboursOfType f ⟨p.1, p.2⟩ CellType.FLAG).length : Nat) : Int) = cell.number then
      neighboursOfType f ⟨p.1, p.2⟩ CellType.UNKNOWN
    else []


/-- A mine placement `M` consistent with the board: `M` holds only cells of type
`UNKNOWN` or `FLAG` (so only coordinates on the board), every `FLAG` cell is in
`M`, and every `NUMBER` cell has exactly its number of neighbours in `M`. -/
def Consistent (f : Field) (M : Finset Coord) : Prop :=
  (∀ s ∈ M, typeAt f s = some CellType.UNKNOWN ∨ typeAt f s = some CellType.FLAG) ∧
  (∀ s, typeAt f s = some CellType.FLAG → s ∈ M) ∧
  (∀ c cell, cellAt f c = some cell → cell.type = CellType.NUMBER →
    ((((neighbours c).filter fun s => decide (s ∈ M)).length : Nat) : Int) = cell.number)

/-- All interior reads of the cell in row `y` and column `x` fall inside the
pixel grid. -/
def interiorInside (pixels : List (List Nat)) (y x : Nat) : Prop :=
  ∀ p ∈ interior, (pixelAt pixels (y * CELL_SIZE + p.2) (x * CELL_SIZE + p.1)).isSome = true

instance interiorInside.decidable (pixels : List (List Nat)) (y x : Nat) :
    Decidable (interiorInside pixels y x) :=
  inferInstanceAs (Decidable (∀ p ∈ interior,
    (pixelAt pixels (y * CELL_SIZE + p.2) (x * CELL_SIZE + p.1)).isSome = true))

/-- Some interior sample of the cell in row `y` and column `x` has the given
colour. -/
def interiorHas (pixels : List (List Nat)) (y x : Nat) (colour : Nat) : Prop :=
  ∃ p ∈ interior, pixelAt pixels (y * CELL_SIZE + p.2) (x * CELL_SIZE + p.1) = some colour

instance interiorHas.decidable (pixels : List (List Nat)) (y x : Nat) (colour : Nat) :
    Decidable (interiorHas pixels y x colour) :=
  inferInstanceAs (Decidable (∃ p ∈ interior,
    pixelAt pixels (y * CELL_SIZE + p.2) (x * CELL_SIZE + p.1) = some colour))

/-- A `16 × 16` pixel block: `topLeft` at offset `(0, 0)`, the colours `a` and
`b` at the interior offsets `(5, 5)` and `(6, 6)`, and `fill` everywhere else. -/
def blockWith (topLeft fill a b : Nat) : List (List Nat) :=
  (List.range CELL_SIZE).map fun i => (List.range CELL_SIZE).map fun j =>
    if i = 0 ∧ j = 0 then topLeft
    else if i = 5 ∧ j = 5 then a
    else if i = 6 ∧ j = 6 then b
    else fill

/-! ## Boards used as instances -/

/-- One row: a `1` next to its only neighbour, an unrevealed cell. -/
def boardOneUnknown : Field := [[⟨CellType.NUMBER, 1⟩, ⟨CellType.UNKNOWN, 0⟩]]

/-- One row: a `1` between a flag and an unrevealed cell. -/
def boardFlagOneUnknown : Field :=
  [[⟨CellType.FLAG, 0⟩, ⟨CellType.NUMBER, 1⟩, ⟨CellType.UNKNOWN, 0⟩]]

/-- One row: a flagged mine, a `1`, an unrevealed safe cell, an empty cell, a
`1`, an unrevealed mine. -/
def boardFlagOneOne : Field :=
  [[⟨CellType.FLAG, 0⟩, ⟨CellType.NUMBER, 1⟩, ⟨CellType.UNKNOWN, 0⟩,
    ⟨CellType.EMPTY, 0⟩, ⟨CellType.NUMBER, 1⟩, ⟨CellType.UNKNOWN, 0⟩]]

/-- The mines of `boardFlagOneOne`. -/
def minesFlagOneOne : Finset Coord := {⟨0, 0⟩, ⟨0, 5⟩}

/-- One row: a `1` between two unrevealed cells. -/
def boardUnknownOneUnknown : Field :=
  [[⟨CellType.UNKNOWN, 0⟩, ⟨CellType.NUMBER, 1⟩, ⟨CellType.UNKNOWN, 0⟩]]

/-- One row: an unrevealed cell between two `1`s, which both imply it. -/
def boardOneUnknownOne : Field :=
  [[⟨CellType.NUMBER, 1⟩, ⟨CellType.UNKNOWN, 0⟩, ⟨CellType.NUMBER, 1⟩]]

/-- One row: a revealed mine between two unrevealed cells. -/
def boardWithMine : Field :=
  [[⟨CellType.UNKNOWN, 0⟩, ⟨CellType.MINE, 0⟩, ⟨CellType.UNKNOWN, 0⟩]]

/-- Two rows without an unrevealed cell and without a revealed mine. -/
def boardResolved : Field :=
  [[⟨CellType.EMPTY, 0⟩, ⟨CellType.NUMBER, 1⟩], [⟨CellType.NUMBER, 1⟩, ⟨CellType.FLAG, 0⟩]]

/-- One row `1 ? 1 F`: the left `1` makes the unrevealed cell a certain mine,
the right `1`, already satisfied by the flag, makes it a certain safe cell. -/
def boardConflict : Field :=
  [[⟨CellType.NUMBER, 1⟩, ⟨CellType.UNKNOWN, 0⟩, ⟨CellType.NUMBER, 1⟩, ⟨CellType.FLAG, 0⟩]]


/-! ## Notions for the classifier, the update and the fallback selector -/

/-- The digit colours with their digits, in the order in which `ScanCell` tests
them. -/
def palette : List (Nat × Int) :=
  [(BLUE, 1), (GREEN, 2), (RED, 3), (NAVY, 4), (MAROON, 5), (TEAL, 6), (BLACK, 7), (GREY, 8)]

/-- The cell for the first entry of the list whose colour satisfies `present`:
`NUMBER` with the digit of that entry, and `EMPTY` when no entry does. -/
def firstDigit (present : Nat → Bool) : List (Nat × Int) → Cell
  | [] => ⟨CellType.EMPTY, 0⟩
  | entry :: rest =>
    if present entry.1 = true then ⟨CellType.NUMBER, entry.2⟩ else firstDigit present rest

/-- The cell for the first palette colour that satisfies `present`. -/
def digitCell (present : Nat → Bool) : Cell := firstDigit present palette

/-- The invariant of a cell: a number from 1 to 8 with the type `NUMBER`, the
number 0 with every other type. -/
def CellInvariant (cell : Cell) : Prop :=
  if cell.type = CellType.NUMBER then 1 ≤ cell.number ∧ cell.number ≤ 8 else cell.number = 0

instance CellInvariant.decidable (cell : Cell) : Decidable (CellInvariant cell) :=
  inferInstanceAs (Decidable
    (if cell.type = CellType.NUMBER then 1 ≤ cell.number ∧ cell.number ≤ 8 else cell.number = 0))

/-- Draw number `k` of the fallback selector on the field `f`: the values number
`2 * k` and `2 * k + 1` of the random source, reduced modulo the height and
modulo the width. -/
def draw (f : Field) (rand : Nat → Nat) (k : Nat) : Coord :=
  ⟨(rand (2 * k) : Int) % (f.length : Int), (rand (2 * k + 1) : Int) % (width f : Int)⟩

/-- The `3 × 3` board with a `1` in the centre, a flag at `p` and unrevealed
cells elsewhere. -/
def scenarioBoard (p : Coord) : Field :=
  (List.range 3).map fun y => (List.range 3).map fun x =>
    if y = 1 ∧ x = 1 then (⟨CellType.NUMBER, 1⟩ : Cell)
    else if (⟨(y : Int), (x : Int)⟩ : Coord) = p then ⟨CellType.FLAG, 0⟩
    else ⟨CellType.UNKNOWN, 0⟩

/-- One row: an empty cell and an unrevealed cell. -/
def boardEmptyUnknown : Field := [[⟨CellType.EMPTY, 0⟩, ⟨CellType.UNKNOWN, 0⟩]]

/-- A random source that always returns 0. -/
def randZero : Nat → Nat := fun _ => 0

/-- A random source that returns 0, 1, 2, ... -/
def randCount : Nat → Nat := fun k => k


/-! ## `RemoveDuplicates`: sorted, duplicate-free, same elements -/

theorem Coord.lt_iff (a b : Coord) :
    Coord.lt a b = true ↔ a.y < b.y ∨ (a.y = b.y ∧ a.x < b.x) := by
  unfold Coord.lt
  split <;> simp <;> omega

theorem Coord.le_iff (a b : Coord) :
    Coord.le a b ↔ a.y < b.y ∨ (a.y = b.y ∧ a.x ≤ b.x) := by
  unfold Coord.le
  rw [← Bool.not_eq_true, Coord.lt_iff]
  omega

theorem Coord.le_total (a b : Coord) : Coord.le a b ∨ Coord.le b a := by
  rw [Coord.le_iff, Coord.le_iff]; omega

theorem Coord.le_trans (a b c : Coord) (h₁ : Coord.le a b) (h₂ : Coord.le b c) :
    Coord.le a c := by
  rw [Coord.le_iff] at *; omega

theorem Coord.lt_trans (a b c : Coord) (h₁ : Coord.lt a b = true) (h₂ : Coord.lt b c = true) :
    Coord.lt a c = true := by
  rw [Coord.lt_iff] at *; omega

theorem Coord.lt_irrefl (a : Coord) : Coord.lt a a = false := by
  simp [Coord.lt]

theorem Coord.lt_of_le_of_ne (a b : Coord) (h : Coord.le a b) (hne : ¬ (b.x = a.x ∧ b.y = a.y)) :
    Coord.lt a b = true := by
  rw [Coord.le_iff] at h
  rw [Coord.lt_iff]
  omega

theorem sortCoords_sorted (l : Coords) : List.Pairwise Coord.le (sortCoords l) := by
  haveI : IsTotal Coord Coord.le := ⟨Coord.le_total⟩
  haveI : IsTrans Coord Coord.le := ⟨Coord.le_trans⟩
  exact List.sorted_insertionSort Coord.le l

theorem mem_sortCoords (l : Coords) (c : Coord) : c ∈ sortCoords l ↔ c ∈ l :=
  (List.perm_insertionSort Coord.le l).mem_iff

theorem mem_uniqueLoop (c last : Coord) (l : Coords) :
    c ∈ last :: uniqueLoop last l ↔ c ∈ last :: l := by
  induction l generalizing last with
  | nil => simp [uniqueLoop]
  | cons d rest ih =>
    unfold uniqueLoop
    split
    · rename_i h
      have hd : d = last := by
        cases d; cases last; simp_all
      subst hd
      rw [ih]; simp
    · have := ih d
      simp only [List.mem_cons] at this ⊢
      rw [this]

theorem uniqueLoop_chain (last : Coord) (l : Coords) (h : List.Chain Coord.le last l) :
    List.Chain (fun a b => Coord.lt a b = true) last (uniqueLoop last l) := by
  induction l generalizing last with
  | nil => simp [uniqueLoop]
  | cons d rest ih =>
    rw [List.chain_cons] at h
    unfold uniqueLoop
    split
    · rename_i heq
      have hd : d = last := by
        cases d; cases last; simp_all
      subst hd
      exact ih d h.2
    · rename_i hne
      exact List.Chain.cons (Coord.lt_of_le_of_ne last d h.1 hne) (ih d h.2)

theorem mem_uniqueCoords (l : Coords) (c : Coord) : c ∈ uniqueCoords l ↔ c ∈ l := by
  cases l with
  | nil => simp [uniqueCoords]
  | cons d rest => exact mem_uniqueLoop c d rest

theorem uniqueCoords_sorted (l : Coords) (h : List.Pairwise Coord.le l) :
    List.Pairwise (fun a b => Coord.lt a b = true) (uniqueCoords l) := by
  haveI : IsTrans Coord (fun a b => Coord.lt a b = true) := ⟨Coord.lt_trans⟩
  cases l with
  | nil => simp [uniqueCoords]
  | cons d rest =>
    unfold uniqueCoords
    rw [← List.chain_iff_pairwise]
    exact uniqueLoop_chain d rest (List.Pairwise.chain h)

/-- The vector left by `RemoveDuplicates` is strictly ascending for `Coord::operator<`. -/
theorem RemoveDuplicates_sorted (l : Coords) :
    List.Pairwise (fun a b => Coord.lt a b = true) (RemoveDuplicates l) :=
  uniqueCoords_sorted _ (sortCoords_sorted l)

/-- The vector left by `RemoveDuplicates` is strictly ascending in the
lexicographic order, rows first. -/
theorem RemoveDuplicates_ascending (l : Coords) :
    List.Pairwise (fun a b => a.y < b.y ∨ (a.y = b.y ∧ a.x < b.x)) (RemoveDuplicates l) :=
  List.Pairwise.imp (fun h => (Coord.lt_iff _ _).1 h) (RemoveDuplicates_sorted l)

/-- The vector left by `RemoveDuplicates` has exactly the elements of its argument. -/
theorem mem_RemoveDuplicates (l : Coords) (c : Coord) : c ∈ RemoveDuplicates l ↔ c ∈ l := by
  unfold RemoveDuplicates
  rw [mem_uniqueCoords, mem_sortCoords]

/-- The vector left by `RemoveDuplicates` holds no coordinate twice. -/
theorem RemoveDuplicates_nodup (l : Coords) : (RemoveDuplicates l).Nodup := by
  have h := RemoveDuplicates_sorted l
  unfold List.Nodup
  refine List.Pairwise.imp ?_ h
  intro a b hab heq
  subst heq
  rw [Coord.lt_irrefl] at hab
  exact Bool.noConfusion hab


/-! ## Board reads -/

theorem cellAt_eq_some_iff (f : Field) (c : Coord) (cell : Cell) :
    cellAt f c = some cell ↔
      0 ≤ c.y ∧ 0 ≤ c.x ∧ ∃ row, f[c.y.toNat]? = some row ∧ row[c.x.toNat]? = some cell := by
  unfold cellAt
  by_cases h : 0 ≤ c.y ∧ 0 ≤ c.x
  · rw [if_pos h]
    cases hrow : f[c.y.toNat]? with
    | none => simp
    | some row => simp [h.1, h.2]
  · rw [if_neg h]
    constructor
    · intro h'; exact Option.noConfusion h'
    · rintro ⟨h1, h2, _⟩; exact absurd ⟨h1, h2⟩ h

theorem isCorrect_iff (f : Field) (c : Coord) :
    IsCorrect f c = true ↔ 0 ≤ c.y ∧ c.y < f.length ∧ 0 ≤ c.x ∧ c.x < width f := by
  simp [IsCorrect, and_assoc]

theorem isCorrect_iff_cellAt (f : Field) (hrect : Rectangular f) (c : Coord) :
    IsCorrect f c = true ↔ ∃ cell, cellAt f c = some cell := by
  rw [isCorrect_iff]
  constructor
  · rintro ⟨hy0, hy, hx0, hx⟩
    have hy' : c.y.toNat < f.length := by omega
    have hmem : f[c.y.toNat] ∈ f := List.getElem_mem hy'
    have hlen := hrect _ hmem
    have hx' : c.x.toNat < (f[c.y.toNat]).length := by omega
    refine ⟨(f[c.y.toNat])[c.x.toNat], ?_⟩
    rw [cellAt_eq_some_iff]
    refine ⟨hy0, hx0, f[c.y.toNat], ?_, ?_⟩
    · exact List.getElem?_eq_getElem hy'
    · exact List.getElem?_eq_getElem hx'
  · rintro ⟨cell, h⟩
    rw [cellAt_eq_some_iff] at h
    obtain ⟨hy0, hx0, row, hrow, hcell⟩ := h
    rw [List.getElem?_eq_some_iff] at hrow hcell
    obtain ⟨hy, hrow⟩ := hrow
    obtain ⟨hx, -⟩ := hcell
    have hmem : row ∈ f := hrow ▸ List.getElem_mem hy
    have hlen := hrect _ hmem
    omega

theorem typeAt_eq_some_iff (f : Field) (c : Coord) (t : CellType) :
    typeAt f c = some t ↔ ∃ cell, cellAt f c = some cell ∧ cell.type = t := by
  unfold typeAt
  cases cellAt f c <;> simp

theorem mem_cells_iff (f : Field) (p : Nat × Nat) :
    p ∈ cells f ↔ ∃ cell, cellAt f ⟨p.1, p.2⟩ = some cell := by
  obtain ⟨y, x⟩ := p
  unfold cells
  simp only [List.mem_flatMap, List.mem_range, List.mem_map, Prod.mk.injEq, cellAt_eq_some_iff]
  constructor
  · rintro ⟨y', hy, x', hx, rfl, rfl⟩
    rw [List.getD_eq_getElem _ _ hy] at hx
    refine ⟨(f[y'])[x'], by omega, by omega, f[y'], ?_, ?_⟩
    · simp
    · simp
  · rintro ⟨cell, -, -, row, hrow, hcell⟩
    simp only [Int.toNat_ofNat] at hrow hcell
    rw [List.getElem?_eq_some_iff] at hrow hcell
    obtain ⟨hy, hrow⟩ := hrow
    obtain ⟨hx, -⟩ := hcell
    refine ⟨y, hy, x, ?_, rfl, rfl⟩
    rw [List.getD_eq_getElem _ _ hy, hrow]
    exact hx


/-! ## `GetCountOfType` on a rectangular board -/

theorem countLoop_rect (f : Field) (hrect : Rectangular f) (coord : Coord) (t : CellType)
    (l : List (Int × Int)) (acc : Coords) :
    countLoop f coord t l acc =
      some (acc ++ ((l.filter fun d => !(decide (d.1 = 0 ∧ d.2 = 0))).map
        fun d => (⟨coord.y + d.1, coord.x + d.2⟩ : Coord)).filter
          fun s => decide (typeAt f s = some t)) := by
  induction l generalizing acc with
  | nil => simp [countLoop]
  | cons d rest ih =>
    obtain ⟨dy, dx⟩ := d
    unfold countLoop
    by_cases h0 : dy = 0 ∧ dx = 0
    · rw [if_pos h0, ih]
      simp [h0]
    · rw [if_neg h0]
      have hf : (((dy, dx) :: rest).filter fun d => !(decide (d.1 = 0 ∧ d.2 = 0))) =
          (dy, dx) :: rest.filter fun d => !(decide (d.1 = 0 ∧ d.2 = 0)) := by
        rw [List.filter_cons_of_pos]
        simp only [Bool.not_eq_true', decide_eq_false_iff_not]
        exact h0
      rw [hf, List.map_cons]
      simp only
      by_cases hc : IsCorrect f ⟨coord.y + dy, coord.x + dx⟩ = true
      · rw [if_pos hc]
        obtain ⟨cell, hcell⟩ := (isCorrect_iff_cellAt f hrect _).1 hc
        rw [hcell]
        simp only
        by_cases ht : cell.type = t
        · rw [if_pos ht, ih]
          have : typeAt f ⟨coord.y + dy, coord.x + dx⟩ = some t := by
            rw [typeAt_eq_some_iff]; exact ⟨cell, hcell, ht⟩
          rw [List.filter_cons_of_pos (by simpa using this)]
          simp
        · rw [if_neg ht, ih]
          have : ¬ typeAt f ⟨coord.y + dy, coord.x + dx⟩ = some t := by
            rw [typeAt_eq_some_iff]
            rintro ⟨cell', hcell', ht'⟩
            rw [hcell] at hcell'
            cases hcell'
            exact ht ht'
          rw [List.filter_cons_of_neg (by simpa using this)]
      · rw [if_neg hc, ih]
        have : ¬ typeAt f ⟨coord.y + dy, coord.x + dx⟩ = some t := by
          rw [typeAt_eq_some_iff]
          rintro ⟨cell', hcell', -⟩
          exact hc ((isCorrect_iff_cellAt f hrect _).2 ⟨cell', hcell'⟩)
        rw [List.filter_cons_of_neg (by simpa using this)]

theorem shifts_neighbours (coord : Coord) :
    ((shifts.filter fun d => !(decide (d.1 = 0 ∧ d.2 = 0))).map
        fun d => (⟨coord.y + d.1, coord.x + d.2⟩ : Coord)) = neighbours coord := by
  have h : (shifts.filter fun d => !(decide (d.1 = 0 ∧ d.2 = 0))) =
      [(-1, -1), (-1, 0), (-1, 1), (0, -1), (0, 1), (1, -1), (1, 0), (1, 1)] := by decide
  rw [h]
  simp [neighbours, sub_eq_add_neg]

/-- On a rectangular board `GetCountOfType` is defined and returns the in-bounds
Moore neighbours of the given type. -/
theorem GetCountOfType_rect (f : Field) (hrect : Rectangular f) (coord : Coord) (t : CellType) :
    GetCountOfType f coord t = some (neighboursOfType f coord t) := by
  unfold GetCountOfType
  rw [countLoop_rect f hrect, shifts_neighbours]
  rfl

/-- The list `neighbours c` holds exactly the coordinates other than `c` at
distance at most one in both directions. -/
theorem mem_neighbours_iff (c s : Coord) :
    s ∈ neighbours c ↔ s ≠ c ∧ |s.y - c.y| ≤ 1 ∧ |s.x - c.x| ≤ 1 := by
  obtain ⟨cy, cx⟩ := c
  obtain ⟨sy, sx⟩ := s
  simp only [neighbours, List.mem_cons, Coord.mk.injEq, List.mem_singleton, List.not_mem_nil,
    or_false, ne_eq, abs_le]
  omega

/-- The list `neighbours c` holds no coordinate twice, so the length of a
filtered sublist counts neighbours. -/
theorem neighbours_nodup (c : Coord) : (neighbours c).Nodup := by
  obtain ⟨cy, cx⟩ := c
  simp only [neighbours, List.nodup_cons, List.mem_cons, Coord.mk.injEq, List.mem_singleton,
    List.not_mem_nil, List.nodup_nil, or_false, and_true, true_and, not_false_eq_true]
  omega

/-! ## The two passes on a rectangular board -/

theorem cornerBody_rect (f : Field) (hrect : Rectangular f) (p : Nat × Nat) (hp : p ∈ cells f)
    (acc : Coords) : cornerBody f p acc = some (acc ++ cornerAdd f p) := by
  obtain ⟨cell, hcell⟩ := (mem_cells_iff f p).1 hp
  unfold cornerBody cornerAdd
  rw [hcell, GetCountOfType_rect f hrect, GetCountOfType_rect f hrect]
  simp only
  split_ifs <;> simp_all

theorem freeBody_rect (f : Field) (hrect : Rectangular f) (p : Nat × Nat) (hp : p ∈ cells f)
    (acc : Coords) : freeBody f p acc = some (acc ++ freeAdd f p) := by
  obtain ⟨cell, hcell⟩ := (mem_cells_iff f p).1 hp
  unfold freeBody freeAdd
  rw [hcell, GetCountOfType_rect f hrect, GetCountOfType_rect f hrect]
  simp only
  split_ifs <;> simp_all

theorem forEach_eq_flatMap {α : Type} (body : α → Coords → Option Coords) (add : α → Coords)
    (l : List α) (h : ∀ a ∈ l, ∀ acc, body a acc = some (acc ++ add a)) (acc : Coords) :
    forEach body l acc = some (acc ++ l.flatMap add) := by
  induction l generalizing acc with
  | nil => simp [forEach]
  | cons a rest ih =>
    unfold forEach
    rw [h a (List.mem_cons_self a rest)]
    simp only
    rw [ih (fun b hb => h b (List.mem_cons_of_mem a hb))]
    simp [List.flatMap_cons]

/-- On a rectangular board `GetCornerMines` is defined: it returns the
accumulator followed by the contributions of all cells, sorted and deduplicated. -/
theorem GetCornerMines_rect (f : Field) (hrect : Rectangular f) (acc : Coords) :
    GetCornerMines f acc = some (RemoveDuplicates (acc ++ (cells f).flatMap (cornerAdd f))) := by
  unfold GetCornerMines
  rw [forEach_eq_flatMap (cornerBody f) (cornerAdd f) (cells f)
    (fun p hp a => cornerBody_rect f hrect p hp a)]
  rfl

/-- On a rectangular board `GetFreeMoves` is defined: it returns the
accumulator followed by the contributions of all cells, sorted and deduplicated. -/
theorem GetFreeMoves_rect (f : Field) (hrect : Rectangular f) (acc : Coords) :
    GetFreeMoves f acc = some (RemoveDuplicates (acc ++ (cells f).flatMap (freeAdd f))) := by
  unfold GetFreeMoves
  rw [forEach_eq_flatMap (freeBody f) (freeAdd f) (cells f)
    (fun p hp a => freeBody_rect f hrect p hp a)]
  rfl


/-! ## Which coordinates the two passes collect -/

theorem coord_of_cellAt (f : Field) (c : Coord) (cell : Cell) (h : cellAt f c = some cell) :
    (c.y.toNat, c.x.toNat) ∈ cells f ∧ (⟨(c.y.toNat : Int), (c.x.toNat : Int)⟩ : Coord) = c := by
  have hb := (cellAt_eq_some_iff f c cell).1 h
  have hc : (⟨(c.y.toNat : Int), (c.x.toNat : Int)⟩ : Coord) = c := by
    obtain ⟨y, x⟩ := c
    simp only [Coord.mk.injEq]
    exact ⟨Int.toNat_of_nonneg hb.1, Int.toNat_of_nonneg hb.2.1⟩
  refine ⟨?_, hc⟩
  rw [mem_cells_iff]
  exact ⟨cell, by rw [hc]; exact h⟩

theorem mem_cornerAdd_iff (f : Field) (p : Nat × Nat) (s : Coord) :
    s ∈ cornerAdd f p ↔ ∃ cell, cellAt f ⟨p.1, p.2⟩ = some cell ∧ cell.type = CellType.NUMBER ∧
      (((neighboursOfType f ⟨p.1, p.2⟩ CellType.UNKNOWN).length +
        (neighboursOfType f ⟨p.1, p.2⟩ CellType.FLAG).length : Nat) : Int) = cell.number ∧
      s ∈ neighboursOfType f ⟨p.1, p.2⟩ CellType.UNKNOWN := by
  unfold cornerAdd
  cases hcell : cellAt f ⟨p.1, p.2⟩ with
  | none => simp
  | some cell =>
    simp only [Option.some.injEq, exists_eq_left']
    split_ifs with h
    · exact ⟨fun hs => ⟨h.1, h.2, hs⟩, fun hs => hs.2.2⟩
    · constructor
      · intro hs; exact absurd hs (List.not_mem_nil s)
      · rintro ⟨h1, h2, -⟩; exact absurd ⟨h1, h2⟩ h

theorem mem_freeAdd_iff (f : Field) (p : Nat × Nat) (s : Coord) :
    s ∈ freeAdd f p ↔ ∃ cell, cellAt f ⟨p.1, p.2⟩ = some cell ∧ cell.type = CellType.NUMBER ∧
      (((neighboursOfType f ⟨p.1, p.2⟩ CellType.FLAG).length : Nat) : Int) = cell.number ∧
      s ∈ neighboursOfType f ⟨p.1, p.2⟩ CellType.UNKNOWN := by
  unfold freeAdd
  cases hcell : cellAt f ⟨p.1, p.2⟩ with
  | none => simp
  | some cell =>
    simp only [Option.some.injEq, exists_eq_left']
    split_ifs with h
    · exact ⟨fun hs => ⟨h.1, h.2, hs⟩, fun hs => hs.2.2⟩
    · constructor
      · intro hs; exact absurd hs (List.not_mem_nil s)
      · rintro ⟨h1, h2, -⟩; exact absurd ⟨h1, h2⟩ h

/-- The coordinates the certain-mine pass collects on a board: the `UNKNOWN`
neighbours of the `NUMBER` cells whose number is the count of their `UNKNOWN`
and `FLAG` neighbours. -/
theorem mem_cornerCollected_iff (f : Field) (s : Coord) :
    s ∈ (cells f).flatMap (cornerAdd f) ↔
      ∃ c cell, cellAt f c = some cell ∧ cell.type = CellType.NUMBER ∧
        (((neighboursOfType f c CellType.UNKNOWN).length +
          (neighboursOfType f c CellType.FLAG).length : Nat) : Int) = cell.number ∧
        s ∈ neighboursOfType f c CellType.UNKNOWN := by
  rw [List.mem_flatMap]
  constructor
  · rintro ⟨p, -, hs⟩
    obtain ⟨cell, h1, h2, h3, h4⟩ := (mem_cornerAdd_iff f p s).1 hs
    exact ⟨⟨p.1, p.2⟩, cell, h1, h2, h3, h4⟩
  · rintro ⟨c, cell, h1, h2, h3, h4⟩
    obtain ⟨hp, hc⟩ := coord_of_cellAt f c cell h1
    refine ⟨(c.y.toNat, c.x.toNat), hp, ?_⟩
    rw [mem_cornerAdd_iff]
    simp only [hc]
    exact ⟨cell, h1, h2, h3, h4⟩

/-- The coordinates the certain-safe pass collects on a board: the `UNKNOWN`
neighbours of the `NUMBER` cells whose number is the count of their `FLAG`
neighbours. -/
theorem mem_freeCollected_iff (f : Field) (s : Coord) :
    s ∈ (cells f).flatMap (freeAdd f) ↔
      ∃ c cell, cellAt f c = some cell ∧ cell.type = CellType.NUMBER ∧
        (((neighboursOfType f c CellType.FLAG).length : Nat) : Int) = cell.number ∧
        s ∈ neighboursOfType f c CellType.UNKNOWN := by
  rw [List.mem_flatMap]
  constructor
  · rintro ⟨p, -, hs⟩
    obtain ⟨cell, h1, h2, h3, h4⟩ := (mem_freeAdd_iff f p s).1 hs
    exact ⟨⟨p.1, p.2⟩, cell, h1, h2, h3, h4⟩
  · rintro ⟨c, cell, h1, h2, h3, h4⟩
    obtain ⟨hp, hc⟩ := coord_of_cellAt f c cell h1
    refine ⟨(c.y.toNat, c.x.toNat), hp, ?_⟩
    rw [mem_freeAdd_iff]
    simp only [hc]
    exact ⟨cell, h1, h2, h3, h4⟩

theorem mem_neighboursOfType_iff (f : Field) (c s : Coord) (t : CellType) :
    s ∈ neighboursOfType f c t ↔ s ∈ neighbours c ∧ typeAt f s = some t := by
  simp [neighboursOfType]


/-! ## Counting neighbours against a consistent mine placement -/

theorem filter_length_le_of_imp {α : Type} (l : List α) (p q : α → Bool)
    (himp : ∀ x ∈ l, p x = true → q x = true) :
    (l.filter p).length ≤ (l.filter q).length := by
  rw [← List.countP_eq_length_filter, ← List.countP_eq_length_filter]
  exact List.countP_mono_left himp

theorem filter_converse_of_length_eq {α : Type} (l : List α) (p q : α → Bool)
    (himp : ∀ x ∈ l, p x = true → q x = true)
    (hlen : (l.filter p).length = (l.filter q).length) :
    ∀ x ∈ l, q x = true → p x = true := by
  induction l with
  | nil => intro x hx; exact absurd hx (List.not_mem_nil x)
  | cons a rest ih =>
    have himp' : ∀ x ∈ rest, p x = true → q x = true :=
      fun x hx => himp x (List.mem_cons_of_mem a hx)
    have hle := filter_length_le_of_imp rest p q himp'
    have ha := himp a (List.mem_cons_self a rest)
    cases hp : p a <;> cases hq : q a
    · simp only [List.filter_cons, hp, hq] at hlen
      intro x hx hqx
      rcases List.mem_cons.1 hx with rfl | hx'
      · rw [hq] at hqx; exact Bool.noConfusion hqx
      · exact ih himp' (by simpa using hlen) x hx' hqx
    · simp only [List.filter_cons, hp, hq] at hlen
      simp at hlen
      omega
    · rw [hp] at ha
      rw [hq] at ha
      exact Bool.noConfusion (ha rfl)
    · simp only [List.filter_cons, hp, hq] at hlen
      intro x hx hqx
      rcases List.mem_cons.1 hx with rfl | hx'
      · exact hp
      · exact ih himp' (by simpa using hlen) x hx' hqx

theorem filter_or_length {α : Type} (l : List α) (p q : α → Bool)
    (hdisj : ∀ x ∈ l, ¬ (p x = true ∧ q x = true)) :
    (l.filter fun x => p x || q x).length = (l.filter p).length + (l.filter q).length := by
  induction l with
  | nil => rfl
  | cons a rest ih =>
    have ih' := ih (fun x hx => hdisj x (List.mem_cons_of_mem a hx))
    have ha := hdisj a (List.mem_cons_self a rest)
    cases hp : p a <;> cases hq : q a
    · simp [List.filter_cons, hp, hq, ih']
    · simp [List.filter_cons, hp, hq, ih']; omega
    · simp [List.filter_cons, hp, hq, ih']; omega
    · exact absurd ⟨hp, hq⟩ ha

/-- Under a consistent placement, the `UNKNOWN` neighbours of a `NUMBER` cell
whose number is the count of its `UNKNOWN` and `FLAG` neighbours are all mines. -/
theorem mines_of_consistent (f : Field) (M : Finset Coord) (hM : Consistent f M)
    (c : Coord) (cell : Cell) (hcell : cellAt f c = some cell)
    (htype : cell.type = CellType.NUMBER)
    (hcount : (((neighboursOfType f c CellType.UNKNOWN).length +
      (neighboursOfType f c CellType.FLAG).length : Nat) : Int) = cell.number) :
    ∀ s ∈ neighboursOfType f c CellType.UNKNOWN, s ∈ M := by
  obtain ⟨hsub, -, hnum⟩ := hM
  have hn := hnum c cell hcell htype
  have hor := filter_or_length (neighbours c)
    (fun s => decide (typeAt f s = some CellType.UNKNOWN))
    (fun s => decide (typeAt f s = some CellType.FLAG))
    (by
      intro x _ h
      simp only [decide_eq_true_eq] at h
      rw [h.1] at h
      exact absurd h.2 (by decide))
  have hlen : ((neighbours c).filter fun s => decide (s ∈ M)).length =
      ((neighbours c).filter fun s => decide (typeAt f s = some CellType.UNKNOWN) ||
        decide (typeAt f s = some CellType.FLAG)).length := by
    rw [hor]
    unfold neighboursOfType at hcount
    omega
  have hconv := filter_converse_of_length_eq (neighbours c) _ _
    (by
      intro x _ hx
      have := hsub x (by simpa using hx)
      simpa using this) hlen
  intro s hs
  rw [mem_neighboursOfType_iff] at hs
  have := hconv s hs.1 (by simp [hs.2])
  simpa using this

/-- Under a consistent placement, no `UNKNOWN` neighbour of a `NUMBER` cell
whose number is the count of its `FLAG` neighbours is a mine. -/
theorem safe_of_consistent (f : Field) (M : Finset Coord) (hM : Consistent f M)
    (c : Coord) (cell : Cell) (hcell : cellAt f c = some cell)
    (htype : cell.type = CellType.NUMBER)
    (hcount : (((neighboursOfType f c CellType.FLAG).length : Nat) : Int) = cell.number) :
    ∀ s ∈ neighboursOfType f c CellType.UNKNOWN, s ∉ M := by
  obtain ⟨-, hflag, hnum⟩ := hM
  have hn := hnum c cell hcell htype
  have hlen : ((neighbours c).filter fun s => decide (typeAt f s = some CellType.FLAG)).length =
      ((neighbours c).filter fun s => decide (s ∈ M)).length := by
    unfold neighboursOfType at hcount
    omega
  have hconv := filter_converse_of_length_eq (neighbours c) _ _
    (by
      intro x _ hx
      have := hflag x (by simpa using hx)
      simpa using this) hlen
  intro s hs hsM
  rw [mem_neighboursOfType_iff] at hs
  have := hconv s hs.1 (by simpa using hsM)
  simp only [decide_eq_true_eq] at this
  rw [hs.2] at this
  exact absurd this (by decide)


/-! ## The two passes on an arbitrary board -/

/-- A loop body that, wherever it is defined, appends to the accumulator a list
that does not depend on the accumulator. -/
theorem cornerBody_appends (f : Field) (p : Nat × Nat) :
    (∀ acc, cornerBody f p acc = none) ∨ ∃ add, ∀ acc, cornerBody f p acc = some (acc ++ add) := by
  unfold cornerBody
  cases cellAt f ⟨p.1, p.2⟩ with
  | none => exact Or.inl fun _ => rfl
  | some cell =>
    by_cases ht : cell.type = CellType.NUMBER
    · simp only [ht, if_true]
      cases GetCountOfType f ⟨p.1, p.2⟩ CellType.UNKNOWN with
      | none => exact Or.inl fun _ => rfl
      | some unknowns =>
        cases GetCountOfType f ⟨p.1, p.2⟩ CellType.FLAG with
        | none => exact Or.inl fun _ => rfl
        | some flags =>
          simp only
          split_ifs
          · exact Or.inr ⟨unknowns, fun _ => rfl⟩
          · exact Or.inr ⟨[], fun acc => by rw [List.append_nil]⟩
    · simp only [ht, if_false]
      exact Or.inr ⟨[], fun acc => by rw [List.append_nil]⟩

theorem freeBody_appends (f : Field) (p : Nat × Nat) :
    (∀ acc, freeBody f p acc = none) ∨ ∃ add, ∀ acc, freeBody f p acc = some (acc ++ add) := by
  unfold freeBody
  cases cellAt f ⟨p.1, p.2⟩ with
  | none => exact Or.inl fun _ => rfl
  | some cell =>
    by_cases ht : cell.type = CellType.NUMBER
    · simp only [ht, if_true]
      cases GetCountOfType f ⟨p.1, p.2⟩ CellType.UNKNOWN with
      | none => exact Or.inl fun _ => rfl
      | some unknowns =>
        cases GetCountOfType f ⟨p.1, p.2⟩ CellType.FLAG with
        | none => exact Or.inl fun _ => rfl
        | some flags =>
          simp only
          split_ifs
          · exact Or.inr ⟨unknowns, fun _ => rfl⟩
          · exact Or.inr ⟨[], fun acc => by rw [List.append_nil]⟩
    · simp only [ht, if_false]
      exact Or.inr ⟨[], fun acc => by rw [List.append_nil]⟩

theorem forEach_appends {α : Type} (body : α → Coords → Option Coords)
    (hbody : ∀ a, (∀ acc, body a acc = none) ∨ ∃ add, ∀ acc, body a acc = some (acc ++ add))
    (l : List α) :
    (∀ acc, forEach body l acc = none) ∨
      ∃ added, ∀ acc, forEach body l acc = some (acc ++ added) := by
  induction l with
  | nil => exact Or.inr ⟨[], fun acc => by simp [forEach]⟩
  | cons a rest ih =>
    rcases hbody a with hnone | ⟨add, hadd⟩
    · left
      intro acc
      unfold forEach
      rw [hnone acc]
    · rcases ih with hrest | ⟨added, hadded⟩
      · left
        intro acc
        unfold forEach
        rw [hadd acc]
        exact hrest _
      · right
        refine ⟨add ++ added, fun acc => ?_⟩
        unfold forEach
        rw [hadd acc]
        simp only
        rw [hadded, List.append_assoc]


/-- A property of all cells of a board can be checked cell by cell along `cells`. -/
theorem forall_cellAt_iff (f : Field) (P : Coord → Cell → Prop) :
    (∀ c cell, cellAt f c = some cell → P c cell) ↔
      ∀ p ∈ cells f, ∀ cell ∈ cellAt f ⟨p.1, p.2⟩, P ⟨p.1, p.2⟩ cell := by
  constructor
  · intro h p _ cell hcell
    exact h _ cell (Option.mem_def.1 hcell)
  · intro h c cell hcell
    obtain ⟨hp, hc⟩ := coord_of_cellAt f c cell hcell
    have := h _ hp cell (by rw [Option.mem_def]; simp only [hc]; exact hcell)
    simp only [hc] at this
    exact this

/-- Consistency of a placement can be checked cell by cell along `cells`. -/
theorem consistent_iff (f : Field) (M : Finset Coord) :
    Consistent f M ↔
      (∀ s ∈ M, typeAt f s = some CellType.UNKNOWN ∨ typeAt f s = some CellType.FLAG) ∧
      ∀ p ∈ cells f, ∀ cell ∈ cellAt f ⟨p.1, p.2⟩,
        (cell.type = CellType.FLAG → (⟨p.1, p.2⟩ : Coord) ∈ M) ∧
        (cell.type = CellType.NUMBER →
          ((((neighbours ⟨p.1, p.2⟩).filter fun s => decide (s ∈ M)).length : Nat) : Int)
            = cell.number) := by
  rw [← forall_cellAt_iff f fun c cell => (cell.type = CellType.FLAG → c ∈ M) ∧
        (cell.type = CellType.NUMBER →
          ((((neighbours c).filter fun s => decide (s ∈ M)).length : Nat) : Int) = cell.number)]
  unfold Consistent
  constructor
  · rintro ⟨h1, h2, h3⟩
    refine ⟨h1, fun c cell hcell => ⟨fun ht => h2 c ?_, h3 c cell hcell⟩⟩
    rw [typeAt_eq_some_iff]; exact ⟨cell, hcell, ht⟩
  · rintro ⟨h1, h2⟩
    refine ⟨h1, fun s hs => ?_, fun c cell hcell => (h2 c cell hcell).2⟩
    rw [typeAt_eq_some_iff] at hs
    obtain ⟨cell, hcell, ht⟩ := hs
    exact (h2 s cell hcell).1 ht


/-! ## `IsOver` -/

theorem overRow_of_mine (row : List Cell) (n : Int)
    (h : ∃ cell ∈ row, cell.type = CellType.MINE) : overRow row n = none := by
  induction row generalizing n with
  | nil =>
    obtain ⟨cell, hcell, -⟩ := h
    exact absurd hcell (List.not_mem_nil cell)
  | cons a rest ih =>
    unfold overRow
    by_cases ha : a.type = CellType.MINE
    · simp [ha]
    · simp only [ha, if_false]
      apply ih
      obtain ⟨cell, hcell, hm⟩ := h
      rcases List.mem_cons.1 hcell with rfl | hrest
      · exact absurd hm ha
      · exact ⟨cell, hrest, hm⟩

theorem overRow_of_no_mine (row : List Cell) (n : Int)
    (h : ∀ cell ∈ row, cell.type ≠ CellType.MINE) :
    overRow row n =
      some (n + ((row.filter fun cell => decide (cell.type = CellType.UNKNOWN)).length : Nat)) := by
  induction row generalizing n with
  | nil => simp [overRow]
  | cons a rest ih =>
    unfold overRow
    have ha := h a (List.mem_cons_self a rest)
    simp only [ha, if_false]
    rw [ih _ (fun cell hcell => h cell (List.mem_cons_of_mem a hcell))]
    by_cases hu : a.type = CellType.UNKNOWN
    · simp [hu, List.filter_cons]; omega
    · simp [hu, List.filter_cons]

theorem overRows_of_mine (f : List (List Cell)) (n : Int)
    (h : ∃ row ∈ f, ∃ cell ∈ row, cell.type = CellType.MINE) : overRows f n = true := by
  induction f generalizing n with
  | nil =>
    obtain ⟨row, hrow, -⟩ := h
    exact absurd hrow (List.not_mem_nil row)
  | cons r rest ih =>
    unfold overRows
    cases hr : overRow r n with
    | none => rfl
    | some counted =>
      simp only
      apply ih
      obtain ⟨row, hrow, hm⟩ := h
      rcases List.mem_cons.1 hrow with rfl | hrest
      · rw [overRow_of_mine row n hm] at hr
        exact Option.noConfusion hr
      · exact ⟨row, hrest, hm⟩

theorem overRows_of_no_mine (f : List (List Cell)) (n : Int) (hn : 0 ≤ n)
    (h : ∀ row ∈ f, ∀ cell ∈ row, cell.type ≠ CellType.MINE) :
    overRows f n = true ↔
      n = 0 ∧ ∀ row ∈ f, ∀ cell ∈ row, cell.type ≠ CellType.UNKNOWN := by
  induction f generalizing n with
  | nil => simp [overRows]
  | cons r rest ih =>
    unfold overRows
    rw [overRow_of_no_mine r n (h r (List.mem_cons_self r rest))]
    simp only
    rw [ih _ (by omega) (fun row hrow => h row (List.mem_cons_of_mem r hrow))]
    have hzero : (r.filter fun cell => decide (cell.type = CellType.UNKNOWN)).length = 0 ↔
        ∀ cell ∈ r, cell.type ≠ CellType.UNKNOWN := by
      rw [List.length_eq_zero, List.filter_eq_nil_iff]
      simp
    constructor
    · rintro ⟨h0, hrest⟩
      refine ⟨by omega, ?_⟩
      intro row hrow
      rcases List.mem_cons.1 hrow with rfl | hr
      · exact hzero.1 (by omega)
      · exact hrest row hr
    · rintro ⟨h0, hall⟩
      have := hzero.2 (hall r (List.mem_cons_self r rest))
      refine ⟨by omega, fun row hrow => hall row (List.mem_cons_of_mem r hrow)⟩


/-! ## `ScanCell` -/

/-- The interior iterations are the offsets from `CELL_BORDER` up to, and
without, `CELL_SIZE - CELL_BORDER` in both directions. -/
theorem mem_interior_iff (cellX cellY : Nat) :
    (cellX, cellY) ∈ interior ↔
      (CELL_BORDER ≤ cellX ∧ cellX < CELL_SIZE - CELL_BORDER) ∧
      (CELL_BORDER ≤ cellY ∧ cellY < CELL_SIZE - CELL_BORDER) := by
  simp only [interior, insetRange, CELL_BORDER, CELL_SIZE, List.mem_flatMap, List.mem_map,
    List.mem_range', Prod.mk.injEq]
  constructor
  · rintro ⟨a, ⟨i, hi, rfl⟩, b, ⟨j, hj, rfl⟩, rfl, rfl⟩
    omega
  · rintro ⟨⟨h1, h2⟩, h3, h4⟩
    exact ⟨cellX, ⟨cellX - 2, by omega, by omega⟩, cellY, ⟨cellY - 2, by omega, by omega⟩, rfl, rfl⟩

theorem readSamples_spec (pixels : List (List Nat)) (offsetY offsetX : Nat)
    (l : List (Nat × Nat))
    (h : ∀ p ∈ l, (pixelAt pixels (offsetY + p.2) (offsetX + p.1)).isSome = true) :
    ∃ samples, readSamples pixels offsetY offsetX l = some samples ∧
      ∀ c, c ∈ samples ↔ ∃ p ∈ l, pixelAt pixels (offsetY + p.2) (offsetX + p.1) = some c := by
  induction l with
  | nil => exact ⟨[], rfl, by simp⟩
  | cons a rest ih =>
    obtain ⟨cellX, cellY⟩ := a
    obtain ⟨samples, hs, hmem⟩ := ih (fun p hp => h p (List.mem_cons_of_mem _ hp))
    have ha := h (cellX, cellY) (List.mem_cons_self _ _)
    obtain ⟨colour, hcolour⟩ := Option.isSome_iff_exists.1 ha
    refine ⟨colour :: samples, ?_, ?_⟩
    · unfold readSamples
      simp only at hcolour
      rw [hcolour, hs]
    · intro c
      simp only [List.mem_cons, hmem]
      constructor
      · rintro (rfl | ⟨p, hp, hpc⟩)
        · exact ⟨(cellX, cellY), Or.inl rfl, hcolour⟩
        · exact ⟨p, Or.inr hp, hpc⟩
      · rintro ⟨p, rfl | hp, hpc⟩
        · left
          simp only at hpc hcolour
          rw [hcolour] at hpc
          exact (Option.some.inj hpc).symm
        · exact Or.inr ⟨p, hp, hpc⟩

/-- When its reads fall inside the pixel grid, `ScanCell` returns the
classification of the top-left pixel and of a count that is non-zero exactly on
the colours present in the interior. -/
theorem ScanCell_spec (pixels : List (List Nat)) (y x topLeft : Nat)
    (htl : pixelAt pixels (y * CELL_SIZE) (x * CELL_SIZE) = some topLeft)
    (hin : interiorInside pixels y x) :
    ∃ colorsCount : Nat → Nat, ScanCell pixels y x = some (classify topLeft colorsCount) ∧
      ∀ c, colorsCount c ≠ 0 ↔ interiorHas pixels y x c := by
  obtain ⟨samples, hs, hmem⟩ := readSamples_spec pixels (y * CELL_SIZE) (x * CELL_SIZE) interior hin
  refine ⟨fun colour => samples.count colour, ?_, ?_⟩
  · unfold ScanCell
    simp only
    rw [htl, hs]
  · intro c
    simp only [ne_eq, List.count_eq_zero, not_not, hmem]
    rfl


/-! ## The chain of tests of `ScanCell` in terms of the colours present -/

theorem classify_of_presence (topLeft : Nat) (colorsCount : Nat → Nat) (has : Nat → Prop)
    [DecidablePred has] (h : ∀ c, colorsCount c ≠ 0 ↔ has c) :
    classify topLeft colorsCount =
      if has BLACK ∧ has RED then ⟨CellType.FLAG, 0⟩
      else if topLeft = WHITE then ⟨CellType.UNKNOWN, 0⟩
      else if has BLACK ∧ has WHITE then ⟨CellType.MINE, 0⟩
      else digitCell fun c => decide (has c) := by
  have e : ∀ c, (colorsCount c ≠ 0) = has c := fun c => propext (h c)
  unfold classify
  simp only [e, digitCell, palette, firstDigit, decide_eq_true_eq]
  by_cases ht : topLeft = WHITE
  · have hb : (topLeft != WHITE) = false := by
      rw [ht]; exact bne_self_eq_false WHITE
    simp only [hb, Bool.false_eq_true, if_false, if_pos ht]
  · have hb : (topLeft != WHITE) = true := by
      rw [bne_iff_ne]; exact ht
    simp only [hb, if_true, if_neg ht]

/-- Whenever `ScanCell` returns a cell, it is the classification of some
top-left colour and some count. -/
theorem ScanCell_eq_classify (pixels : List (List Nat)) (y x : Nat) (cell : Cell)
    (h : ScanCell pixels y x = some cell) :
    ∃ topLeft colorsCount, cell = classify topLeft colorsCount := by
  unfold ScanCell at h
  simp only at h
  cases htl : pixelAt pixels (y * CELL_SIZE) (x * CELL_SIZE) with
  | none => rw [htl] at h; exact Option.noConfusion h
  | some topLeft =>
    rw [htl] at h
    cases hs : readSamples pixels (y * CELL_SIZE) (x * CELL_SIZE) interior with
    | none => rw [hs] at h; exact Option.noConfusion h
    | some samples =>
      rw [hs] at h
      exact ⟨topLeft, fun colour => samples.count colour, (Option.some.inj h).symm⟩

/-- The result of `ScanCell` from the colours present in the interior. -/
theorem ScanCell_of_presence (pixels : List (List Nat)) (y x topLeft : Nat)
    (htl : pixelAt pixels (y * CELL_SIZE) (x * CELL_SIZE) = some topLeft)
    (hin : interiorInside pixels y x) :
    ScanCell pixels y x = some (
      if interiorHas pixels y x BLACK ∧ interiorHas pixels y x RED then ⟨CellType.FLAG, 0⟩
      else if topLeft = WHITE then ⟨CellType.UNKNOWN, 0⟩
      else if interiorHas pixels y x BLACK ∧ interiorHas pixels y x WHITE then
        ⟨CellType.MINE, 0⟩
      else digitCell fun c => decide (interiorHas pixels y x c)) := by
  obtain ⟨cnt, hscan, hcnt⟩ := ScanCell_spec pixels y x topLeft htl hin
  rw [hscan, classify_of_presence topLeft cnt (interiorHas pixels y x) hcnt]

/-- The interior is a square of 12 by 12 samples. -/
theorem interior_length : interior.length = 144 := rfl

theorem firstDigit_of_first (present : Nat → Bool) (pre : List (Nat × Int)) (colour : Nat)
    (digit : Int) (post : List (Nat × Int)) (hpre : ∀ entry ∈ pre, present entry.1 = false)
    (hcolour : present colour = true) :
    firstDigit present (pre ++ (colour, digit) :: post) = ⟨CellType.NUMBER, digit⟩ := by
  induction pre with
  | nil =>
    rw [List.nil_append]
    unfold firstDigit
    rw [if_pos hcolour]
  | cons a rest ih =>
    rw [List.cons_append]
    unfold firstDigit
    have ha := hpre a (List.mem_cons_self a rest)
    rw [if_neg (by rw [ha]; exact Bool.false_ne_true)]
    exact ih (fun entry hentry => hpre entry (List.mem_cons_of_mem a hentry))

theorem firstDigit_of_none (present : Nat → Bool) (l : List (Nat × Int))
    (h : ∀ entry ∈ l, present entry.1 = false) : firstDigit present l = ⟨CellType.EMPTY, 0⟩ := by
  induction l with
  | nil => rfl
  | cons a rest ih =>
    unfold firstDigit
    have ha := h a (List.mem_cons_self a rest)
    rw [if_neg (by rw [ha]; exact Bool.false_ne_true)]
    exact ih (fun entry hentry => h entry (List.mem_cons_of_mem a hentry))

theorem firstDigit_invariant (present : Nat → Bool) (l : List (Nat × Int))
    (h : ∀ entry ∈ l, 1 ≤ entry.2 ∧ entry.2 ≤ 8) : CellInvariant (firstDigit present l) := by
  induction l with
  | nil => unfold firstDigit CellInvariant; decide
  | cons a rest ih =>
    unfold firstDigit
    by_cases ha : present a.1 = true
    · rw [if_pos ha]
      unfold CellInvariant
      rw [if_pos rfl]
      exact h a (List.mem_cons_self a rest)
    · rw [if_neg ha]
      exact ih (fun entry hentry => h entry (List.mem_cons_of_mem a hentry))

/-- Every classification satisfies the cell invariant. -/
theorem classify_invariant (topLeft : Nat) (colorsCount : Nat → Nat) :
    CellInvariant (classify topLeft colorsCount) := by
  rw [classify_of_presence topLeft colorsCount (fun c => colorsCount c ≠ 0) (fun _ => Iff.rfl)]
  split_ifs
  · decide
  · decide
  · decide
  · exact firstDigit_invariant _ palette (by decide)


/-! ## `UpdateMines` -/

theorem setCell_eq_some (f : Field) (c : Coord) (cell : Cell) (updated : Field)
    (h : setCell f c cell = some updated) :
    0 ≤ c.y ∧ 0 ≤ c.x ∧ ∃ row, f[c.y.toNat]? = some row ∧ c.x.toNat < row.length ∧
      updated = f.set c.y.toNat (row.set c.x.toNat cell) := by
  unfold setCell at h
  by_cases hc : 0 ≤ c.y ∧ 0 ≤ c.x
  · rw [if_pos hc] at h
    cases hrow : f[c.y.toNat]? with
    | none => rw [hrow] at h; exact Option.noConfusion h
    | some row =>
      rw [hrow] at h
      simp only at h
      by_cases hx : c.x.toNat < row.length
      · rw [if_pos hx] at h
        exact ⟨hc.1, hc.2, row, rfl, hx, (Option.some.inj h).symm⟩
      · rw [if_neg hx] at h
        exact Option.noConfusion h
  · rw [if_neg hc] at h
    exact Option.noConfusion h

/-- A write on the board is defined. -/
theorem setCell_of_cellAt (f : Field) (c : Coord) (cell old : Cell)
    (h : cellAt f c = some old) : ∃ updated, setCell f c cell = some updated := by
  obtain ⟨hy, hx, row, hrow, hold⟩ := (cellAt_eq_some_iff f c old).1 h
  have hlt : c.x.toNat < row.length := (List.getElem?_eq_some_iff.1 hold).1
  refine ⟨f.set c.y.toNat (row.set c.x.toNat cell), ?_⟩
  unfold setCell
  rw [if_pos ⟨hy, hx⟩, hrow]
  simp only
  rw [if_pos hlt]

theorem set_eq_self_of_getElem? {α : Type} (l : List α) (i : Nat) (a : α)
    (h : l[i]? = some a) : l.set i a = l := by
  apply List.ext_getElem?
  intro n
  rw [List.getElem?_set]
  by_cases hin : i = n
  · subst hin
    rw [if_pos rfl, if_pos (List.getElem?_eq_some_iff.1 h).1, h]
  · rw [if_neg hin]

/-- A write keeps the number of rows and the length of every row. -/
theorem setCell_shape (f : Field) (c : Coord) (cell : Cell) (updated : Field)
    (h : setCell f c cell = some updated) :
    updated.map List.length = f.map List.length := by
  obtain ⟨-, -, row, hrow, -, rfl⟩ := setCell_eq_some f c cell updated h
  rw [List.map_set, List.length_set]
  apply set_eq_self_of_getElem?
  rw [List.getElem?_map, hrow]
  rfl

/-- A write changes the cell at its coordinate and no other cell. -/
theorem cellAt_setCell (f : Field) (c : Coord) (cell : Cell) (updated : Field)
    (h : setCell f c cell = some updated) (s : Coord) :
    cellAt updated s = if s = c then some cell else cellAt f s := by
  obtain ⟨hy, hx, row, hrow, hlt, rfl⟩ := setCell_eq_some f c cell updated h
  have hylt : c.y.toNat < f.length := (List.getElem?_eq_some_iff.1 hrow).1
  unfold cellAt
  by_cases hs : 0 ≤ s.y ∧ 0 ≤ s.x
  · rw [if_pos hs, if_pos hs, List.getElem?_set]
    by_cases hyy : c.y.toNat = s.y.toNat
    · rw [if_pos hyy, if_pos hylt]
      simp only
      rw [← hyy, hrow]
      simp only
      rw [List.getElem?_set]
      by_cases hxx : c.x.toNat = s.x.toNat
      · have hsc : s = c := by
          obtain ⟨sy, sx⟩ := s
          obtain ⟨cy, cx⟩ := c
          simp only [Coord.mk.injEq]
          simp only at hs hy hx hyy hxx
          omega
        rw [if_pos hxx, if_pos hlt, if_pos hsc]
      · have hsc : ¬ s = c := by
          intro hsc
          rw [hsc] at hxx
          exact hxx rfl
        rw [if_neg hxx, if_neg hsc]
    · have hsc : ¬ s = c := by
        intro hsc
        rw [hsc] at hyy
        exact hyy rfl
      rw [if_neg hyy, if_neg hsc]
  · have hsc : ¬ s = c := by
      intro hsc
      rw [hsc] at hs
      exact hs ⟨hy, hx⟩
    rw [if_neg hs, if_neg hs, if_neg hsc]

/-- Wherever `UpdateMines` is defined, it keeps the shape of the field, and the
cell at a coordinate is the flag cell if the coordinate is listed and the
original cell otherwise. -/
theorem UpdateMines_spec (f : Field) (mines : Coords) (updated : Field)
    (h : UpdateMines f mines = some updated) :
    updated.map List.length = f.map List.length ∧
    ∀ s, cellAt updated s =
      if s ∈ mines then
        (if (cellAt f s).isSome = true then some ⟨CellType.FLAG, 0⟩ else none)
      else cellAt f s := by
  induction mines generalizing f with
  | nil =>
    unfold UpdateMines at h
    cases h
    exact ⟨rfl, fun s => by simp⟩
  | cons c rest ih =>
    unfold UpdateMines at h
    cases hset : setCell f c ⟨CellType.FLAG, 0⟩ with
    | none => rw [hset] at h; exact Option.noConfusion h
    | some g =>
      rw [hset] at h
      simp only at h
      obtain ⟨hshape, hcells⟩ := ih g h
      refine ⟨hshape.trans (setCell_shape f c _ g hset), ?_⟩
      intro s
      rw [hcells s]
      have hg := cellAt_setCell f c _ g hset
      obtain ⟨hy, hx, row, hrow, hlt, -⟩ := setCell_eq_some f c _ g hset
      have hc : (cellAt f c).isSome = true := by
        have : cellAt f c = some (row[c.x.toNat]) := by
          rw [cellAt_eq_some_iff]
          exact ⟨hy, hx, row, hrow, List.getElem?_eq_getElem hlt⟩
        rw [this]; rfl
      by_cases hsc : s = c
      · subst hsc
        rw [hg s, if_pos rfl]
        simp [hc]
      · rw [hg s, if_neg hsc]
        simp [hsc]

/-- On listed coordinates that are all on the board, `UpdateMines` is defined. -/
theorem UpdateMines_defined (f : Field) (mines : Coords)
    (h : ∀ c ∈ mines, (cellAt f c).isSome = true) :
    ∃ updated, UpdateMines f mines = some updated := by
  induction mines generalizing f with
  | nil => exact ⟨f, rfl⟩
  | cons c rest ih =>
    obtain ⟨old, hold⟩ := Option.isSome_iff_exists.1 (h c (List.mem_cons_self c rest))
    obtain ⟨g, hg⟩ := setCell_of_cellAt f c ⟨CellType.FLAG, 0⟩ old hold
    have hrest : ∀ d ∈ rest, (cellAt g d).isSome = true := by
      intro d hd
      rw [cellAt_setCell f c _ g hg d]
      by_cases hdc : d = c
      · rw [if_pos hdc]; rfl
      · rw [if_neg hdc]; exact h d (List.mem_cons_of_mem c hd)
    obtain ⟨updated, hupdated⟩ := ih g hrest
    refine ⟨updated, ?_⟩
    unfold UpdateMines
    rw [hg]
    exact hupdated

theorem width_eq_headD (f : Field) : width f = (f.map List.length).headD 0 := by
  cases f <;> rfl

/-- A field with the shape of a rectangular field is rectangular, with the same
width and height. -/
theorem rectangular_of_shape (f g : Field) (h : g.map List.length = f.map List.length)
    (hrect : Rectangular f) : Rectangular g ∧ width g = width f ∧ g.length = f.length := by
  have hw : width g = width f := by rw [width_eq_headD, width_eq_headD, h]
  refine ⟨?_, hw, ?_⟩
  · intro row hrow
    have hmem : row.length ∈ g.map List.length := List.mem_map_of_mem _ hrow
    rw [h, List.mem_map] at hmem
    obtain ⟨r, hr, hlen⟩ := hmem
    rw [hw, ← hlen]
    exact hrect r hr
  · have := congrArg List.length h
    simpa using this


/-! ## `RandomMove` -/

/-- Every draw on a rectangular board with a cell lands on the board. -/
theorem draw_on_board (f : Field) (rand : Nat → Nat) (hrect : Rectangular f)
    (hheight : 1 ≤ f.length) (hwidth : 1 ≤ width f) (k : Nat) :
    ∃ cell, cellAt f (draw f rand k) = some cell := by
  rw [← isCorrect_iff_cellAt f hrect, isCorrect_iff]
  have hh : (0 : Int) < (f.length : Int) := by omega
  have hw : (0 : Int) < (width f : Int) := by omega
  unfold draw
  exact ⟨Int.emod_nonneg _ (ne_of_gt hh), Int.emod_lt_of_pos _ hh,
    Int.emod_nonneg _ (ne_of_gt hw), Int.emod_lt_of_pos _ hw⟩

/-- The loop of `RandomMove` from draw number `first` on, with `remaining`
iterations left: it returns the first of these draws that lands on an `UNKNOWN`
cell, and without such a draw the last one, or `move` when no iteration is left. -/
theorem randomLoop_spec (f : Field) (rand : Nat → Nat) (hrect : Rectangular f)
    (hheight : 1 ≤ f.length) (hwidth : 1 ≤ width f) (remaining first : Nat) (move : Coord) :
    ∃ result, randomLoop f f.length (width f) rand remaining (2 * first) move = some result ∧
      ((∃ j, j < remaining ∧ typeAt f (draw f rand (first + j)) = some CellType.UNKNOWN ∧
          (∀ i, i < j → typeAt f (draw f rand (first + i)) ≠ some CellType.UNKNOWN) ∧
          result = draw f rand (first + j)) ∨
       ((∀ j, j < remaining → typeAt f (draw f rand (first + j)) ≠ some CellType.UNKNOWN) ∧
          result = if remaining = 0 then move else draw f rand (first + remaining - 1))) := by
  induction remaining generalizing first move with
  | zero =>
    refine ⟨move, rfl, Or.inr ⟨fun j hj => absurd hj (Nat.not_lt_zero j), ?_⟩⟩
    rw [if_pos rfl]
  | succ n ih =>
    obtain ⟨cell, hcell⟩ := draw_on_board f rand hrect hheight hwidth first
    have hdraw : (⟨(rand (2 * first) : Int) % (f.length : Int),
        (rand (2 * first + 1) : Int) % (width f : Int)⟩ : Coord) = draw f rand first := rfl
    unfold randomLoop
    simp only
    rw [hdraw, hcell]
    simp only
    by_cases hu : cell.type = CellType.UNKNOWN
    · rw [if_pos hu]
      refine ⟨draw f rand first, rfl, Or.inl ⟨0, Nat.succ_pos n, ?_, ?_, rfl⟩⟩
      · rw [typeAt_eq_some_iff]; exact ⟨cell, hcell, hu⟩
      · intro i hi; exact absurd hi (Nat.not_lt_zero i)
    · rw [if_neg hu]
      have hnot : typeAt f (draw f rand first) ≠ some CellType.UNKNOWN := by
        rw [ne_eq, typeAt_eq_some_iff]
        rintro ⟨cell', hcell', hu'⟩
        rw [hcell] at hcell'
        cases hcell'
        exact hu hu'
      have hidx : 2 * first + 2 = 2 * (first + 1) := by ring
      rw [hidx]
      obtain ⟨result, hres, hcase⟩ := ih (first + 1) (draw f rand first)
      refine ⟨result, hres, ?_⟩
      rcases hcase with ⟨j, hj, hju, hbefore, hrj⟩ | ⟨hnone, hlast⟩
      · left
        refine ⟨j + 1, Nat.succ_lt_succ hj, ?_, ?_, ?_⟩
        · rw [show first + (j + 1) = first + 1 + j by omega]; exact hju
        · intro i hi
          cases i with
          | zero => exact hnot
          | succ i =>
            rw [show first + (i + 1) = first + 1 + i by omega]
            exact hbefore i (by omega)
        · rw [show first + (j + 1) = first + 1 + j by omega]; exact hrj
      · right
        refine ⟨?_, ?_⟩
        · intro j hj
          cases j with
          | zero => exact hnot
          | succ j =>
            rw [show first + (j + 1) = first + 1 + j by omega]
            exact hnone j (by omega)
        · rw [if_neg (Nat.succ_ne_zero n), hlast]
          by_cases hn : n = 0
          · subst hn
            simp
          · rw [if_neg hn]
            congr 1
            omega

/-- The method `RandomMove` runs its loop over the first `height * width` draws. -/
theorem RandomMove_eq (f : Field) (rand : Nat → Nat) (hheight : 1 ≤ f.length) :
    RandomMove f rand =
      randomLoop f f.length (width f) rand (f.length * width f) (2 * 0) ⟨0, 0⟩ := by
  cases f with
  | nil => simp at hheight
  | cons row rest =>
    unfold RandomMove
    simp only [width]
    rw [← Nat.cast_mul, Int.toNat_ofNat]

/-- The result of `RandomMove` on a rectangular board with a cell: on the
board, and either the first of the first `height * width` draws that lands on
an `UNKNOWN` cell or, without such a draw, the last of them. -/
theorem RandomMove_spec (f : Field) (rand : Nat → Nat) (hrect : Rectangular f)
    (hheight : 1 ≤ f.length) (hwidth : 1 ≤ width f) :
    ∃ move, RandomMove f rand = some move ∧ (∃ cell, cellAt f move = some cell) ∧
      ((∃ k, k < f.length * width f ∧ typeAt f (draw f rand k) = some CellType.UNKNOWN ∧
          (∀ i, i < k → typeAt f (draw f rand i) ≠ some CellType.UNKNOWN) ∧
          move = draw f rand k) ∨
       ((∀ k, k < f.length * width f → typeAt f (draw f rand k) ≠ some CellType.UNKNOWN) ∧
          move = draw f rand (f.length * width f - 1))) := by
  obtain ⟨result, hres, hcase⟩ :=
    randomLoop_spec f rand hrect hheight hwidth (f.length * width f) 0 ⟨0, 0⟩
  rw [← RandomMove_eq f rand hheight] at hres
  have hpos : f.length * width f ≠ 0 := Nat.mul_ne_zero (by omega) (by omega)
  simp only [Nat.zero_add, if_neg hpos] at hcase
  refine ⟨result, hres, ?_, hcase⟩
  rcases hcase with ⟨k, -, -, -, hk⟩ | ⟨-, hk⟩
  · rw [hk]; exact draw_on_board f rand hrect hheight hwidth k
  · rw [hk]; exact draw_on_board f rand hrect hheight hwidth _


/-! ## The certain-mine pass followed by `UpdateMines` -/

/-- On a rectangular board the certain-mine pass from an empty accumulator lists
`UNKNOWN` cells of the board, `UpdateMines` is defined on them, keeps the shape
of the board and turns exactly the listed cells into flags. -/
theorem cornerMines_update (f : Field) (hrect : Rectangular f) :
    ∃ mines updated, GetCornerMines f [] = some mines ∧ UpdateMines f mines = some updated ∧
      (∀ s, s ∈ mines ↔ s ∈ (cells f).flatMap (cornerAdd f)) ∧
      (∀ s ∈ mines, typeAt f s = some CellType.UNKNOWN) ∧
      updated.map List.length = f.map List.length ∧ Rectangular updated ∧
      ∀ s, cellAt updated s = if s ∈ mines then some ⟨CellType.FLAG, 0⟩ else cellAt f s := by
  have hmem : ∀ s, s ∈ RemoveDuplicates ([] ++ (cells f).flatMap (cornerAdd f)) ↔
      s ∈ (cells f).flatMap (cornerAdd f) := by
    intro s
    rw [mem_RemoveDuplicates, List.nil_append]
  have hunknown : ∀ s ∈ RemoveDuplicates ([] ++ (cells f).flatMap (cornerAdd f)),
      typeAt f s = some CellType.UNKNOWN := by
    intro s hs
    rw [hmem, mem_cornerCollected_iff] at hs
    obtain ⟨c, cell, -, -, -, hs⟩ := hs
    exact ((mem_neighboursOfType_iff f c s _).1 hs).2
  have hon : ∀ s ∈ RemoveDuplicates ([] ++ (cells f).flatMap (cornerAdd f)),
      (cellAt f s).isSome = true := by
    intro s hs
    obtain ⟨cell, hcell, -⟩ := (typeAt_eq_some_iff f s _).1 (hunknown s hs)
    rw [hcell]; rfl
  obtain ⟨updated, hupd⟩ := UpdateMines_defined f _ hon
  obtain ⟨hshape, hcells⟩ := UpdateMines_spec f _ updated hupd
  refine ⟨_, updated, GetCornerMines_rect f hrect [], hupd, hmem, hunknown, hshape,
    (rectangular_of_shape f updated hshape hrect).1, ?_⟩
  intro s
  rw [hcells s]
  by_cases hs : s ∈ RemoveDuplicates ([] ++ (cells f).flatMap (cornerAdd f))
  · rw [if_pos hs, if_pos hs, if_pos (hon s hs)]
  · rw [if_neg hs, if_neg hs]

/-- Turning `UNKNOWN` cells into flags keeps, at every coordinate, whether the
cell is one of the two kinds `UNKNOWN` and `FLAG`. -/
theorem unknown_or_flag_after_update (f updated : Field) (mines : Coords)
    (hunknown : ∀ s ∈ mines, typeAt f s = some CellType.UNKNOWN)
    (hcells : ∀ s, cellAt updated s =
      if s ∈ mines then some ⟨CellType.FLAG, 0⟩ else cellAt f s) (s : Coord) :
    (typeAt updated s = some CellType.UNKNOWN ∨ typeAt updated s = some CellType.FLAG) ↔
      (typeAt f s = some CellType.UNKNOWN ∨ typeAt f s = some CellType.FLAG) := by
  by_cases hs : s ∈ mines
  · have h1 : typeAt updated s = some CellType.FLAG := by
      unfold typeAt
      rw [hcells s, if_pos hs]
      rfl
    exact ⟨fun _ => Or.inl (hunknown s hs), fun _ => Or.inr h1⟩
  · have h1 : typeAt updated s = typeAt f s := by
      unfold typeAt
      rw [hcells s, if_neg hs]
    rw [h1]

/-- The count of `UNKNOWN` plus `FLAG` neighbours as one filter. -/
theorem unknown_plus_flag_length (f : Field) (c : Coord) :
    (neighboursOfType f c CellType.UNKNOWN).length + (neighboursOfType f c CellType.FLAG).length
      = ((neighbours c).filter fun s => decide (typeAt f s = some CellType.UNKNOWN ∨
          typeAt f s = some CellType.FLAG)).length := by
  have hor := filter_or_length (neighbours c)
    (fun s => decide (typeAt f s = some CellType.UNKNOWN))
    (fun s => decide (typeAt f s = some CellType.FLAG))
    (by
      intro x _ h
      simp only [decide_eq_true_eq] at h
      rw [h.1] at h
      exact absurd h.2 (by decide))
  unfold neighboursOfType
  rw [← hor]
  congr 1
  apply List.filter_congr
  intro s _
  simp only [Bool.decide_or]


/-! ## The deduction engine -/

/-- C1, certain-mine rule: on a rectangular board, for a `NUMBER` cell whose
number equals the count of its in-bounds Moore neighbours of type `UNKNOWN` and
of type `FLAG` together, `GetCornerMines` returns, for any initial accumulator,
a list that holds every `UNKNOWN` neighbour of that cell. -/
theorem certain_mine_rule (f : Field) (acc : Coords) (c : Coord) (cell : Cell)
    (hrect : Rectangular f) (hcell : cellAt f c = some cell)
    (htype : cell.type = CellType.NUMBER)
    (hcount : (((neighboursOfType f c CellType.UNKNOWN).length +
      (neighboursOfType f c CellType.FLAG).length : Nat) : Int) = cell.number) :
    ∃ mines, GetCornerMines f acc = some mines ∧
      ∀ s ∈ neighboursOfType f c CellType.UNKNOWN, s ∈ mines := by
  refine ⟨_, GetCornerMines_rect f hrect acc, ?_⟩
  intro s hs
  rw [mem_RemoveDuplicates, List.mem_append, mem_cornerCollected_iff]
  exact Or.inr ⟨c, cell, hcell, htype, hcount, hs⟩

theorem certain_mine_rule_witness :
    ∃ mines, GetCornerMines boardOneUnknown [⟨7, 7⟩] = some mines ∧
      ∀ s ∈ neighboursOfType boardOneUnknown ⟨0, 0⟩ CellType.UNKNOWN, s ∈ mines :=
  certain_mine_rule boardOneUnknown [⟨7, 7⟩] ⟨0, 0⟩ ⟨CellType.NUMBER, 1⟩
    (by decide) (by decide) rfl (by decide)

/-- C2, certain-safe rule: on a rectangular board, for a `NUMBER` cell whose
number equals the count of its in-bounds neighbours of type `FLAG`,
`GetFreeMoves` returns, for any initial accumulator, a list that holds every
in-bounds `UNKNOWN` neighbour of that cell. -/
theorem certain_safe_rule (f : Field) (acc : Coords) (c : Coord) (cell : Cell)
    (hrect : Rectangular f) (hcell : cellAt f c = some cell)
    (htype : cell.type = CellType.NUMBER)
    (hcount : (((neighboursOfType f c CellType.FLAG).length : Nat) : Int) = cell.number) :
    ∃ moves, GetFreeMoves f acc = some moves ∧
      ∀ s ∈ neighboursOfType f c CellType.UNKNOWN, s ∈ moves := by
  refine ⟨_, GetFreeMoves_rect f hrect acc, ?_⟩
  intro s hs
  rw [mem_RemoveDuplicates, List.mem_append, mem_freeCollected_iff]
  exact Or.inr ⟨c, cell, hcell, htype, hcount, hs⟩

theorem certain_safe_rule_witness :
    ∃ moves, GetFreeMoves boardFlagOneUnknown [] = some moves ∧
      ∀ s ∈ neighboursOfType boardFlagOneUnknown ⟨0, 1⟩ CellType.UNKNOWN, s ∈ moves :=
  certain_safe_rule boardFlagOneUnknown [] ⟨0, 1⟩ ⟨CellType.NUMBER, 1⟩
    (by decide) (by decide) rfl (by decide)

/-- C3, soundness of the deductions: on a rectangular board with a consistent
mine placement `M`, every coordinate `GetCornerMines` returns from an empty
accumulator is in `M`, and every coordinate `GetFreeMoves` returns from an empty
accumulator is not in `M`. -/
theorem deductions_sound (f : Field) (M : Finset Coord) (hrect : Rectangular f)
    (hM : Consistent f M) :
    (∃ mines, GetCornerMines f [] = some mines ∧ ∀ s ∈ mines, s ∈ M) ∧
    (∃ moves, GetFreeMoves f [] = some moves ∧ ∀ s ∈ moves, s ∉ M) := by
  refine ⟨⟨_, GetCornerMines_rect f hrect [], ?_⟩, ⟨_, GetFreeMoves_rect f hrect [], ?_⟩⟩
  · intro s hs
    rw [mem_RemoveDuplicates, List.nil_append, mem_cornerCollected_iff] at hs
    obtain ⟨c, cell, hcell, htype, hcount, hmem⟩ := hs
    exact mines_of_consistent f M hM c cell hcell htype hcount s hmem
  · intro s hs
    rw [mem_RemoveDuplicates, List.nil_append, mem_freeCollected_iff] at hs
    obtain ⟨c, cell, hcell, htype, hcount, hmem⟩ := hs
    exact safe_of_consistent f M hM c cell hcell htype hcount s hmem

theorem deductions_sound_witness :
    (∃ mines, GetCornerMines boardFlagOneOne [] = some mines ∧
      ∀ s ∈ mines, s ∈ minesFlagOneOne) ∧
    (∃ moves, GetFreeMoves boardFlagOneOne [] = some moves ∧
      ∀ s ∈ moves, s ∉ minesFlagOneOne) :=
  deductions_sound boardFlagOneOne minesFlagOneOne (by decide)
    ((consistent_iff boardFlagOneOne minesFlagOneOne).2 (by decide))

/-- C4, no false moves: on a rectangular board, from an empty accumulator,
every coordinate returned by `GetCornerMines` is an in-bounds `UNKNOWN` cell
adjacent to a `NUMBER` cell whose number is its count of `UNKNOWN` plus `FLAG`
neighbours, and every coordinate returned by `GetFreeMoves` is an in-bounds
`UNKNOWN` cell adjacent to a `NUMBER` cell whose number is its count of `FLAG`
neighbours. A `NUMBER` cell with fewer flagged neighbours than its number and
more unknown plus flagged neighbours than its number leaves both accumulators
as they are, and when every `NUMBER` cell is of that kind both lists are empty. -/
theorem no_false_moves (f : Field) (hrect : Rectangular f) :
    (∃ mines, GetCornerMines f [] = some mines ∧
      ∀ s ∈ mines, typeAt f s = some CellType.UNKNOWN ∧
        ∃ c cell, cellAt f c = some cell ∧ cell.type = CellType.NUMBER ∧ s ∈ neighbours c ∧
          (((neighboursOfType f c CellType.UNKNOWN).length +
            (neighboursOfType f c CellType.FLAG).length : Nat) : Int) = cell.number) ∧
    (∃ moves, GetFreeMoves f [] = some moves ∧
      ∀ s ∈ moves, typeAt f s = some CellType.UNKNOWN ∧
        ∃ c cell, cellAt f c = some cell ∧ cell.type = CellType.NUMBER ∧ s ∈ neighbours c ∧
          (((neighboursOfType f c CellType.FLAG).length : Nat) : Int) = cell.number) ∧
    (∀ (p : Nat × Nat) (cell : Cell) (acc : Coords),
      cellAt f ⟨p.1, p.2⟩ = some cell → cell.type = CellType.NUMBER →
      (((neighboursOfType f ⟨p.1, p.2⟩ CellType.FLAG).length : Nat) : Int) < cell.number →
      cell.number < (((neighboursOfType f ⟨p.1, p.2⟩ CellType.UNKNOWN).length +
        (neighboursOfType f ⟨p.1, p.2⟩ CellType.FLAG).length : Nat) : Int) →
      cornerBody f p acc = some acc ∧ freeBody f p acc = some acc) ∧
    ((∀ c cell, cellAt f c = some cell → cell.type = CellType.NUMBER →
        (((neighboursOfType f c CellType.FLAG).length : Nat) : Int) < cell.number ∧
        cell.number < (((neighboursOfType f c CellType.UNKNOWN).length +
          (neighboursOfType f c CellType.FLAG).length : Nat) : Int)) →
      GetCornerMines f [] = some [] ∧ GetFreeMoves f [] = some []) := by
  refine ⟨⟨_, GetCornerMines_rect f hrect [], ?_⟩, ⟨_, GetFreeMoves_rect f hrect [], ?_⟩, ?_, ?_⟩
  · intro s hs
    rw [mem_RemoveDuplicates, List.nil_append, mem_cornerCollected_iff] at hs
    obtain ⟨c, cell, hcell, htype, hcount, hmem⟩ := hs
    rw [mem_neighboursOfType_iff] at hmem
    exact ⟨hmem.2, c, cell, hcell, htype, hmem.1, hcount⟩
  · intro s hs
    rw [mem_RemoveDuplicates, List.nil_append, mem_freeCollected_iff] at hs
    obtain ⟨c, cell, hcell, htype, hcount, hmem⟩ := hs
    rw [mem_neighboursOfType_iff] at hmem
    exact ⟨hmem.2, c, cell, hcell, htype, hmem.1, hcount⟩
  · intro p cell acc hcell htype hlt hgt
    have hp : p ∈ cells f := (mem_cells_iff f p).2 ⟨cell, hcell⟩
    rw [cornerBody_rect f hrect p hp, freeBody_rect f hrect p hp]
    have h1 : cornerAdd f p = [] := by
      unfold cornerAdd
      rw [hcell]
      simp only
      rw [if_neg]
      rintro ⟨-, h⟩
      omega
    have h2 : freeAdd f p = [] := by
      unfold freeAdd
      rw [hcell]
      simp only
      rw [if_neg]
      rintro ⟨-, h⟩
      omega
    rw [h1, h2, List.append_nil]
    exact ⟨rfl, rfl⟩
  · intro hall
    rw [GetCornerMines_rect f hrect, GetFreeMoves_rect f hrect]
    have h1 : (cells f).flatMap (cornerAdd f) = [] := by
      rw [List.eq_nil_iff_forall_not_mem]
      intro s hs
      rw [mem_cornerCollected_iff] at hs
      obtain ⟨c, cell, hcell, htype, hcount, -⟩ := hs
      have := hall c cell hcell htype
      omega
    have h2 : (cells f).flatMap (freeAdd f) = [] := by
      rw [List.eq_nil_iff_forall_not_mem]
      intro s hs
      rw [mem_freeCollected_iff] at hs
      obtain ⟨c, cell, hcell, htype, hcount, -⟩ := hs
      have := hall c cell hcell htype
      omega
    rw [h1, h2]
    exact ⟨rfl, rfl⟩

theorem no_false_moves_witness :
    GetCornerMines boardUnknownOneUnknown [] = some [] ∧
    GetFreeMoves boardUnknownOneUnknown [] = some [] :=
  (no_false_moves boardUnknownOneUnknown (by decide)).2.2.2
    ((forall_cellAt_iff boardUnknownOneUnknown _).2 (by decide))

/-- C5, deduplication: on every board and for every initial accumulator, a list
returned by `GetCornerMines` or by `GetFreeMoves` is strictly ascending in the
lexicographic order of `Coord::operator<` (row `y` first, then column `x`),
holds no coordinate twice, and
its elements are exactly those of the initial accumulator and those the pass
appended to it. On a rectangular board both functions return a list. -/
theorem deduplication (f : Field) (acc : Coords) :
    (∀ mines, GetCornerMines f acc = some mines →
      mines.Pairwise (fun a b => a.y < b.y ∨ (a.y = b.y ∧ a.x < b.x)) ∧ mines.Nodup ∧
      ∃ added, forEach (cornerBody f) (cells f) acc = some (acc ++ added) ∧
        ∀ c, c ∈ mines ↔ c ∈ acc ∨ c ∈ added) ∧
    (∀ moves, GetFreeMoves f acc = some moves →
      moves.Pairwise (fun a b => a.y < b.y ∨ (a.y = b.y ∧ a.x < b.x)) ∧ moves.Nodup ∧
      ∃ added, forEach (freeBody f) (cells f) acc = some (acc ++ added) ∧
        ∀ c, c ∈ moves ↔ c ∈ acc ∨ c ∈ added) ∧
    (Rectangular f →
      (GetCornerMines f acc).isSome = true ∧ (GetFreeMoves f acc).isSome = true) := by
  refine ⟨?_, ?_, ?_⟩
  · intro mines h
    unfold GetCornerMines at h
    rcases forEach_appends (cornerBody f) (cornerBody_appends f) (cells f) with
      hnone | ⟨added, hadded⟩
    · rw [hnone acc] at h
      exact Option.noConfusion h
    · rw [hadded acc] at h
      simp only [Option.map_some', Option.some.injEq] at h
      subst h
      refine ⟨RemoveDuplicates_ascending _, RemoveDuplicates_nodup _, added, hadded acc, ?_⟩
      intro c
      rw [mem_RemoveDuplicates, List.mem_append]
  · intro moves h
    unfold GetFreeMoves at h
    rcases forEach_appends (freeBody f) (freeBody_appends f) (cells f) with
      hnone | ⟨added, hadded⟩
    · rw [hnone acc] at h
      exact Option.noConfusion h
    · rw [hadded acc] at h
      simp only [Option.map_some', Option.some.injEq] at h
      subst h
      refine ⟨RemoveDuplicates_ascending _, RemoveDuplicates_nodup _, added, hadded acc, ?_⟩
      intro c
      rw [mem_RemoveDuplicates, List.mem_append]
  · intro hrect
    rw [GetCornerMines_rect f hrect, GetFreeMoves_rect f hrect]
    exact ⟨rfl, rfl⟩

theorem deduplication_witness :
    GetCornerMines boardOneUnknownOne [⟨5, 5⟩, ⟨0, 1⟩, ⟨5, 5⟩] = some [⟨0, 1⟩, ⟨5, 5⟩] ∧
    ([⟨0, 1⟩, ⟨5, 5⟩] : Coords).Pairwise (fun a b => a.y < b.y ∨ (a.y = b.y ∧ a.x < b.x)) ∧
    forEach (cornerBody boardOneUnknownOne) (cells boardOneUnknownOne) [⟨5, 5⟩, ⟨0, 1⟩, ⟨5, 5⟩]
      = some [⟨5, 5⟩, ⟨0, 1⟩, ⟨5, 5⟩, ⟨0, 1⟩, ⟨0, 1⟩] :=
  ⟨by decide,
   ((deduplication boardOneUnknownOne [⟨5, 5⟩, ⟨0, 1⟩, ⟨5, 5⟩]).1 [⟨0, 1⟩, ⟨5, 5⟩]
      (by decide)).1,
   by decide⟩

/-! ## The termination check -/

/-- C6, loss detection: `IsOver` returns true on every board that holds a cell
of type `MINE`, whatever the other cells are. -/
theorem loss_detection (f : Field)
    (hmine : ∃ row ∈ f, ∃ cell ∈ row, cell.type = CellType.MINE) : IsOver f = true := by
  unfold IsOver
  have hne : f.isEmpty = false := by
    obtain ⟨row, hrow, -⟩ := hmine
    cases f with
    | nil => exact absurd hrow (List.not_mem_nil row)
    | cons a rest => rfl
  rw [hne]
  exact overRows_of_mine f 0 hmine

theorem loss_detection_witness : IsOver boardWithMine = true :=
  loss_detection boardWithMine (by decide)

/-- C7, win detection: on a board with at least one row and a first row of
width at least one that holds no cell of type `MINE`, `IsOver` returns true if
and only if no cell of the board has type `UNKNOWN`. -/
theorem win_detection (f : Field) (hheight : 1 ≤ f.length) (hwidth : 1 ≤ width f)
    (hmine : ∀ row ∈ f, ∀ cell ∈ row, cell.type ≠ CellType.MINE) :
    IsOver f = true ↔ ∀ row ∈ f, ∀ cell ∈ row, cell.type ≠ CellType.UNKNOWN := by
  unfold IsOver
  have hne : f.isEmpty = false := by
    cases f with
    | nil => simp at hheight
    | cons a rest => rfl
  rw [hne]
  simp only [Bool.false_eq_true, if_false]
  rw [overRows_of_no_mine f 0 (le_refl 0) hmine]
  simp

theorem win_detection_witness :
    (IsOver boardResolved = true ↔
      ∀ row ∈ boardResolved, ∀ cell ∈ row, cell.type ≠ CellType.UNKNOWN) ∧
    IsOver boardResolved = true ∧ IsOver boardUnknownOneUnknown = false :=
  ⟨win_detection boardResolved (by decide) (by decide) (by decide), by decide, by decide⟩

/-- C8 as stated fails: the board of one row of width zero has no cell, and
`IsOver` returns true on it. -/
theorem empty_board_counterexample :
    (∀ row ∈ ([[]] : Field), row.length = 0) ∧ IsOver [[]] = true := by
  decide

/-- C8, amended: `IsOver` returns false on the board without rows, the case
guarded by `m_field.empty()`; on a board of one or more rows that are all of
width zero it returns true. -/
theorem empty_board (f : Field) :
    (f = [] → IsOver f = false) ∧
    (f ≠ [] → (∀ row ∈ f, row = []) → IsOver f = true) := by
  constructor
  · intro h
    subst h
    rfl
  · intro hne hrows
    unfold IsOver
    have hemp : f.isEmpty = false := by
      cases f with
      | nil => exact absurd rfl hne
      | cons a rest => rfl
    rw [hemp]
    simp only [Bool.false_eq_true, if_false]
    rw [overRows_of_no_mine f 0 (le_refl 0)]
    · refine ⟨rfl, ?_⟩
      intro row hrow cell hcell
      rw [hrows row hrow] at hcell
      exact absurd hcell (List.not_mem_nil cell)
    · intro row hrow cell hcell
      rw [hrows row hrow] at hcell
      exact absurd hcell (List.not_mem_nil cell)

theorem empty_board_witness : IsOver [] = false ∧ IsOver [[], []] = true :=
  ⟨(empty_board []).1 rfl, (empty_board [[], []]).2 (by decide) (by decide)⟩

/-! ## Certain mines and the reveal set -/

/-- C9 as stated fails: on the one-row board `1 ? 1 F` the left `1` has exactly
one unknown plus flagged neighbour, the cell `(0, 1)`, which is therefore a
certain mine, and `GetFreeMoves` returns that same cell because the right `1`
has one flagged neighbour. -/
theorem certain_mines_not_revealed_counterexample :
    Rectangular boardConflict ∧
    cellAt boardConflict ⟨0, 0⟩ = some ⟨CellType.NUMBER, 1⟩ ∧
    (((neighboursOfType boardConflict ⟨0, 0⟩ CellType.UNKNOWN).length +
      (neighboursOfType boardConflict ⟨0, 0⟩ CellType.FLAG).length : Nat) : Int) = 1 ∧
    (⟨0, 1⟩ : Coord) ∈ neighboursOfType boardConflict ⟨0, 0⟩ CellType.UNKNOWN ∧
    GetFreeMoves boardConflict [] = some [⟨0, 1⟩] := by
  decide

/-- C9, amended: on a rectangular board that admits a consistent mine
placement, for a `NUMBER` cell whose number is its count of unknown plus flagged
neighbours, none of that cell's `UNKNOWN` neighbours is in the list
`GetFreeMoves` returns from an empty accumulator on the same board. -/
theorem certain_mines_not_revealed (f : Field) (M : Finset Coord) (c : Coord) (cell : Cell)
    (hrect : Rectangular f) (hM : Consistent f M)
    (hcell : cellAt f c = some cell) (htype : cell.type = CellType.NUMBER)
    (hcount : (((neighboursOfType f c CellType.UNKNOWN).length +
      (neighboursOfType f c CellType.FLAG).length : Nat) : Int) = cell.number) :
    ∃ moves, GetFreeMoves f [] = some moves ∧
      ∀ s ∈ neighboursOfType f c CellType.UNKNOWN, s ∉ moves := by
  refine ⟨_, GetFreeMoves_rect f hrect [], ?_⟩
  intro s hs hmoves
  rw [mem_RemoveDuplicates, List.nil_append, mem_freeCollected_iff] at hmoves
  obtain ⟨d, dcell, hdcell, hdtype, hdcount, hdmem⟩ := hmoves
  exact safe_of_consistent f M hM d dcell hdcell hdtype hdcount s hdmem
    (mines_of_consistent f M hM c cell hcell htype hcount s hs)

theorem certain_mines_not_revealed_witness :
    ∃ moves, GetFreeMoves boardFlagOneOne [] = some moves ∧
      ∀ s ∈ neighboursOfType boardFlagOneOne ⟨0, 4⟩ CellType.UNKNOWN, s ∉ moves :=
  certain_mines_not_revealed boardFlagOneOne minesFlagOneOne ⟨0, 4⟩ ⟨CellType.NUMBER, 1⟩
    (by decide) ((consistent_iff boardFlagOneOne minesFlagOneOne).2 (by decide))
    (by decide) rfl (by decide)

/-! ## The cell classifier -/

set_option maxRecDepth 100000

/-- C10 as stated fails. A revealed cell whose interior holds `BLACK` and, as
only other digit colour, `GREY` (digit 8) is classified `NUMBER 7`: the test for
digit 7 precedes the test for digit 8. With `RED` as the other colour the cell
is a `FLAG`, and with `BLUE` on a `WHITE` interior it is a `MINE`. -/
theorem palette_priority_counterexample :
    (pixelAt (blockWith LIGHTGREY LIGHTGREY BLACK GREY) 0 0 = some LIGHTGREY ∧
      LIGHTGREY ≠ WHITE ∧
      interiorHas (blockWith LIGHTGREY LIGHTGREY BLACK GREY) 0 0 BLACK ∧
      interiorHas (blockWith LIGHTGREY LIGHTGREY BLACK GREY) 0 0 GREY ∧
      (∀ c ∈ [BLUE, GREEN, RED, NAVY, MAROON, TEAL],
        ¬ interiorHas (blockWith LIGHTGREY LIGHTGREY BLACK GREY) 0 0 c) ∧
      ScanCell (blockWith LIGHTGREY LIGHTGREY BLACK GREY) 0 0 = some ⟨CellType.NUMBER, 7⟩) ∧
    ScanCell (blockWith LIGHTGREY LIGHTGREY BLACK RED) 0 0 = some ⟨CellType.FLAG, 0⟩ ∧
    ScanCell (blockWith LIGHTGREY WHITE BLACK BLUE) 0 0 = some ⟨CellType.MINE, 0⟩ := by
  decide

/-- C10, amended: for a cell whose reads fall inside the pixel grid, whose
top-left sample is not `WHITE`, and whose interior holds `BLACK`, no `WHITE`,
and exactly one other digit colour, that colour being `BLUE` (1), `GREEN` (2),
`NAVY` (4), `MAROON` (5) or `TEAL` (6), `ScanCell` returns `NUMBER` with the
digit of that colour, not `NUMBER 7`. -/
theorem palette_priority (pixels : List (List Nat)) (y x topLeft other : Nat) (digit : Int)
    (htl : pixelAt pixels (y * CELL_SIZE) (x * CELL_SIZE) = some topLeft)
    (hin : interiorInside pixels y x)
    (hrevealed : topLeft ≠ WHITE)
    (hblack : interiorHas pixels y x BLACK)
    (hwhite : ¬ interiorHas pixels y x WHITE)
    (hdigit : (other, digit) ∈ [(BLUE, 1), (GREEN, 2), (NAVY, 4), (MAROON, 5), (TEAL, 6)])
    (hother : interiorHas pixels y x other)
    (honly : ∀ c ∈ [BLUE, GREEN, RED, NAVY, MAROON, TEAL, GREY], c ≠ other →
      ¬ interiorHas pixels y x c) :
    ScanCell pixels y x = some ⟨CellType.NUMBER, digit⟩ ∧ digit ≠ 7 := by
  obtain ⟨cnt, hscan, hcnt⟩ := ScanCell_spec pixels y x topLeft htl hin
  rw [hscan]
  have hB : cnt BLACK ≠ 0 := (hcnt BLACK).2 hblack
  have hW : cnt WHITE = 0 := by
    by_contra h
    exact hwhite ((hcnt WHITE).1 h)
  have hO : cnt other ≠ 0 := (hcnt other).2 hother
  have hz : ∀ c ∈ [BLUE, GREEN, RED, NAVY, MAROON, TEAL, GREY], c ≠ other → cnt c = 0 := by
    intro c hc hne
    by_contra h
    exact honly c hc hne ((hcnt c).1 h)
  have hT : (topLeft != WHITE) = true := by simpa using hrevealed
  simp only [List.mem_cons, Prod.mk.injEq, List.mem_singleton, List.not_mem_nil, or_false]
    at hdigit
  rcases hdigit with ⟨rfl, rfl⟩ | ⟨rfl, rfl⟩ | ⟨rfl, rfl⟩ | ⟨rfl, rfl⟩ | ⟨rfl, rfl⟩
  · have hR := hz RED (by simp) (by decide)
    refine ⟨?_, by decide⟩
    simp [classify, hT, hB, hW, hR, hO]
  · have hR := hz RED (by simp) (by decide)
    have h1 := hz BLUE (by simp) (by decide)
    refine ⟨?_, by decide⟩
    simp [classify, hT, hB, hW, hR, hO, h1]
  · have hR := hz RED (by simp) (by decide)
    have h1 := hz BLUE (by simp) (by decide)
    have h2 := hz GREEN (by simp) (by decide)
    refine ⟨?_, by decide⟩
    simp [classify, hT, hB, hW, hR, hO, h1, h2]
  · have hR := hz RED (by simp) (by decide)
    have h1 := hz BLUE (by simp) (by decide)
    have h2 := hz GREEN (by simp) (by decide)
    have h4 := hz NAVY (by simp) (by decide)
    refine ⟨?_, by decide⟩
    simp [classify, hT, hB, hW, hR, hO, h1, h2, h4]
  · have hR := hz RED (by simp) (by decide)
    have h1 := hz BLUE (by simp) (by decide)
    have h2 := hz GREEN (by simp) (by decide)
    have h4 := hz NAVY (by simp) (by decide)
    have h5 := hz MAROON (by simp) (by decide)
    refine ⟨?_, by decide⟩
    simp [classify, hT, hB, hW, hR, hO, h1, h2, h4, h5]

theorem palette_priority_witness :
    ScanCell (blockWith LIGHTGREY LIGHTGREY BLACK TEAL) 0 0 = some ⟨CellType.NUMBER, 6⟩ ∧
      (6 : Int) ≠ 7 :=
  palette_priority (blockWith LIGHTGREY LIGHTGREY BLACK TEAL) 0 0 LIGHTGREY TEAL 6
    (by decide) (by decide) (by decide) (by decide) (by decide) (by decide) (by decide)
    (by decide)


/-! ## The cell classifier, continued -/

/-- C11, digit mapping and Empty default: for a cell whose reads fall inside the
pixel grid, whose top-left sample differs from `WHITE` and whose interior (the
12 by 12 samples of `interior`) holds neither both `BLACK` and `RED` nor both
`BLACK` and `WHITE`, `ScanCell` returns `NUMBER` with the digit of the first
colour present in the interior in the order of `palette` (`BLUE` 1, `GREEN` 2,
`RED` 3, `NAVY` 4, `MAROON` 5, `TEAL` 6, `BLACK` 7, `GREY` 8), and `EMPTY` when
none of the eight colours is present. -/
theorem digit_mapping (pixels : List (List Nat)) (y x topLeft : Nat)
    (htl : pixelAt pixels (y * CELL_SIZE) (x * CELL_SIZE) = some topLeft)
    (hin : interiorInside pixels y x)
    (hrevealed : topLeft ≠ WHITE)
    (hflag : ¬ (interiorHas pixels y x BLACK ∧ interiorHas pixels y x RED))
    (hmine : ¬ (interiorHas pixels y x BLACK ∧ interiorHas pixels y x WHITE)) :
    (∀ pre colour digit post, palette = pre ++ (colour, digit) :: post →
      (∀ entry ∈ pre, ¬ interiorHas pixels y x entry.1) → interiorHas pixels y x colour →
      ScanCell pixels y x = some ⟨CellType.NUMBER, digit⟩) ∧
    ((∀ entry ∈ palette, ¬ interiorHas pixels y x entry.1) →
      ScanCell pixels y x = some ⟨CellType.EMPTY, 0⟩) := by
  have hscan := ScanCell_of_presence pixels y x topLeft htl hin
  rw [if_neg hflag, if_neg hrevealed, if_neg hmine] at hscan
  rw [hscan]
  unfold digitCell
  constructor
  · intro pre colour digit post hpal hpre hcolour
    rw [hpal, firstDigit_of_first _ pre colour digit post
      (fun entry hentry => decide_eq_false (hpre entry hentry)) (decide_eq_true hcolour)]
  · intro hnone
    rw [firstDigit_of_none _ palette (fun entry hentry => decide_eq_false (hnone entry hentry))]

theorem digit_mapping_witness :
    ScanCell (blockWith LIGHTGREY LIGHTGREY GREEN NAVY) 0 0 = some ⟨CellType.NUMBER, 2⟩ ∧
    ScanCell (blockWith LIGHTGREY LIGHTGREY BLACK GREY) 0 0 = some ⟨CellType.NUMBER, 7⟩ :=
  ⟨(digit_mapping (blockWith LIGHTGREY LIGHTGREY GREEN NAVY) 0 0 LIGHTGREY
      (by decide) (by decide) (by decide) (by decide) (by decide)).1
      [(BLUE, 1)] GREEN 2 [(RED, 3), (NAVY, 4), (MAROON, 5), (TEAL, 6), (BLACK, 7), (GREY, 8)]
      rfl (by decide) (by decide),
   (digit_mapping (blockWith LIGHTGREY LIGHTGREY BLACK GREY) 0 0 LIGHTGREY
      (by decide) (by decide) (by decide) (by decide) (by decide)).1
      [(BLUE, 1), (GREEN, 2), (RED, 3), (NAVY, 4), (MAROON, 5), (TEAL, 6)] BLACK 7 [(GREY, 8)]
      rfl (by decide) (by decide)⟩

/-- C12, the flag rule wins first: for a cell whose reads fall inside the pixel
grid and whose interior holds a `BLACK` sample and a `RED` sample, `ScanCell`
returns `FLAG`, whatever the top-left sample and the other colours are. -/
theorem flag_rule (pixels : List (List Nat)) (y x topLeft : Nat)
    (htl : pixelAt pixels (y * CELL_SIZE) (x * CELL_SIZE) = some topLeft)
    (hin : interiorInside pixels y x)
    (hblack : interiorHas pixels y x BLACK) (hred : interiorHas pixels y x RED) :
    ScanCell pixels y x = some ⟨CellType.FLAG, 0⟩ := by
  rw [ScanCell_of_presence pixels y x topLeft htl hin, if_pos ⟨hblack, hred⟩]

theorem flag_rule_witness :
    ScanCell (blockWith WHITE WHITE BLACK RED) 0 0 = some ⟨CellType.FLAG, 0⟩ ∧
    ScanCell (blockWith LIGHTGREY BLUE BLACK RED) 0 0 = some ⟨CellType.FLAG, 0⟩ :=
  ⟨flag_rule (blockWith WHITE WHITE BLACK RED) 0 0 WHITE
      (by decide) (by decide) (by decide) (by decide),
   flag_rule (blockWith LIGHTGREY BLUE BLACK RED) 0 0 LIGHTGREY
      (by decide) (by decide) (by decide) (by decide)⟩

/-- C13, the unknown rule: for a cell whose reads fall inside the pixel grid,
whose interior does not hold both `BLACK` and `RED` and whose top-left sample
(block offset 0, 0) is `WHITE`, `ScanCell` returns `UNKNOWN`, whatever other
colours the interior holds. -/
theorem unknown_rule (pixels : List (List Nat)) (y x : Nat)
    (htl : pixelAt pixels (y * CELL_SIZE) (x * CELL_SIZE) = some WHITE)
    (hin : interiorInside pixels y x)
    (hflag : ¬ (interiorHas pixels y x BLACK ∧ interiorHas pixels y x RED)) :
    ScanCell pixels y x = some ⟨CellType.UNKNOWN, 0⟩ := by
  rw [ScanCell_of_presence pixels y x WHITE htl hin, if_neg hflag, if_pos rfl]

theorem unknown_rule_witness :
    ScanCell (blockWith WHITE LIGHTGREY BLACK BLUE) 0 0 = some ⟨CellType.UNKNOWN, 0⟩ :=
  unknown_rule (blockWith WHITE LIGHTGREY BLACK BLUE) 0 0 (by decide) (by decide) (by decide)

/-- C14, the mine rule: for a cell whose reads fall inside the pixel grid, whose
top-left sample differs from `WHITE` and whose interior holds `BLACK` and
`WHITE` and no `RED`, `ScanCell` returns `MINE`. -/
theorem mine_rule (pixels : List (List Nat)) (y x topLeft : Nat)
    (htl : pixelAt pixels (y * CELL_SIZE) (x * CELL_SIZE) = some topLeft)
    (hin : interiorInside pixels y x)
    (hrevealed : topLeft ≠ WHITE)
    (hblack : interiorHas pixels y x BLACK) (hwhite : interiorHas pixels y x WHITE)
    (hred : ¬ interiorHas pixels y x RED) :
    ScanCell pixels y x = some ⟨CellType.MINE, 0⟩ := by
  rw [ScanCell_of_presence pixels y x topLeft htl hin, if_neg (fun h => hred h.2),
    if_neg hrevealed, if_pos ⟨hblack, hwhite⟩]

theorem mine_rule_witness :
    ScanCell (blockWith LIGHTGREY LIGHTGREY BLACK WHITE) 0 0 = some ⟨CellType.MINE, 0⟩ :=
  mine_rule (blockWith LIGHTGREY LIGHTGREY BLACK WHITE) 0 0 LIGHTGREY
    (by decide) (by decide) (by decide) (by decide) (by decide) (by decide)

/-- C15, the cell invariant: every cell `ScanCell` returns has a number from 1
to 8 if its type is `NUMBER` and the number 0 otherwise, and `ScanCell` returns a
cell whenever its reads fall inside the pixel grid; `UpdateMines` is defined on
coordinates of the board, and every cell of the field it leaves satisfies the
invariant if every cell of the field it started from does. -/
theorem cell_invariant :
    (∀ pixels y x cell, ScanCell pixels y x = some cell → CellInvariant cell) ∧
    (∀ pixels y x, (pixelAt pixels (y * CELL_SIZE) (x * CELL_SIZE)).isSome = true →
      interiorInside pixels y x → (ScanCell pixels y x).isSome = true) ∧
    (∀ f mines updated, UpdateMines f mines = some updated →
      (∀ s cell, cellAt f s = some cell → CellInvariant cell) →
      ∀ s cell, cellAt updated s = some cell → CellInvariant cell) ∧
    (∀ f mines, (∀ c ∈ mines, (cellAt f c).isSome = true) →
      (UpdateMines f mines).isSome = true) := by
  refine ⟨?_, ?_, ?_, ?_⟩
  · intro pixels y x cell h
    obtain ⟨topLeft, cnt, rfl⟩ := ScanCell_eq_classify pixels y x cell h
    exact classify_invariant topLeft cnt
  · intro pixels y x htl hin
    obtain ⟨topLeft, htl'⟩ := Option.isSome_iff_exists.1 htl
    obtain ⟨cnt, hscan, -⟩ := ScanCell_spec pixels y x topLeft htl' hin
    rw [hscan]; rfl
  · intro f mines updated hupd hinv s cell hcell
    have hs := (UpdateMines_spec f mines updated hupd).2 s
    rw [hcell] at hs
    by_cases hmem : s ∈ mines
    · rw [if_pos hmem] at hs
      by_cases hsome : (cellAt f s).isSome = true
      · rw [if_pos hsome] at hs
        rw [Option.some.inj hs]
        decide
      · rw [if_neg hsome] at hs
        exact Option.noConfusion hs
    · rw [if_neg hmem] at hs
      exact hinv s cell hs.symm
  · intro f mines h
    obtain ⟨updated, hupd⟩ := UpdateMines_defined f mines h
    rw [hupd]; rfl

theorem cell_invariant_witness :
    CellInvariant ⟨CellType.NUMBER, 6⟩ ∧
    ∀ s cell, cellAt [[⟨CellType.NUMBER, 1⟩, ⟨CellType.FLAG, 0⟩]] s = some cell →
      CellInvariant cell :=
  ⟨cell_invariant.1 (blockWith LIGHTGREY LIGHTGREY BLACK TEAL) 0 0 ⟨CellType.NUMBER, 6⟩
      (by decide),
   cell_invariant.2.2.1 boardOneUnknown [⟨0, 1⟩] [[⟨CellType.NUMBER, 1⟩, ⟨CellType.FLAG, 0⟩]]
      (by decide) ((forall_cellAt_iff boardOneUnknown _).2 (by decide))⟩

/-! ## The fallback selector -/

/-- C16, fallback selector semantics: on a rectangular board of height and
width at least 1, for every sequence of values of the random source,
`RandomMove` returns the first of the first `height * width` draws that lands
on an `UNKNOWN` cell, and the last of these draws, unchecked, when none of them
does; the result is on the board. -/
theorem fallback_selector (f : Field) (rand : Nat → Nat) (hrect : Rectangular f)
    (hheight : 1 ≤ f.length) (hwidth : 1 ≤ width f) :
    ∃ move, RandomMove f rand = some move ∧ (∃ cell, cellAt f move = some cell) ∧
      ((∃ k, k < f.length * width f ∧ typeAt f (draw f rand k) = some CellType.UNKNOWN ∧
          (∀ i, i < k → typeAt f (draw f rand i) ≠ some CellType.UNKNOWN) ∧
          move = draw f rand k) ∨
       ((∀ k, k < f.length * width f → typeAt f (draw f rand k) ≠ some CellType.UNKNOWN) ∧
          move = draw f rand (f.length * width f - 1))) :=
  RandomMove_spec f rand hrect hheight hwidth

theorem fallback_selector_witness :
    ∃ move, RandomMove boardEmptyUnknown randCount = some move ∧
      (∃ cell, cellAt boardEmptyUnknown move = some cell) ∧
      ((∃ k, k < boardEmptyUnknown.length * width boardEmptyUnknown ∧
          typeAt boardEmptyUnknown (draw boardEmptyUnknown randCount k)
            = some CellType.UNKNOWN ∧
          (∀ i, i < k → typeAt boardEmptyUnknown (draw boardEmptyUnknown randCount i)
            ≠ some CellType.UNKNOWN) ∧
          move = draw boardEmptyUnknown randCount k) ∨
       ((∀ k, k < boardEmptyUnknown.length * width boardEmptyUnknown →
          typeAt boardEmptyUnknown (draw boardEmptyUnknown randCount k)
            ≠ some CellType.UNKNOWN) ∧
          move = draw boardEmptyUnknown randCount
            (boardEmptyUnknown.length * width boardEmptyUnknown - 1))) :=
  fallback_selector boardEmptyUnknown randCount (by decide) (by decide) (by decide)

/-- C17 as stated fails: on the one-row board of an empty cell and an unrevealed
cell, with a random source that always returns 0, both draws land on the empty
cell and `RandomMove` returns it. -/
theorem fallback_scenario_counterexample :
    Rectangular boardEmptyUnknown ∧
    typeAt boardEmptyUnknown ⟨0, 0⟩ = some CellType.EMPTY ∧
    typeAt boardEmptyUnknown ⟨0, 1⟩ = some CellType.UNKNOWN ∧
    cells boardEmptyUnknown = [(0, 0), (0, 1)] ∧
    RandomMove boardEmptyUnknown randZero = some ⟨0, 0⟩ := by
  decide

/-- C17, amended: on a rectangular board on which the cell at `e` is `EMPTY` and
every other cell, at least one, is `UNKNOWN`, `GetCornerMines` and
`GetFreeMoves` return the empty list from empty accumulators, and for every
sequence of values of the random source `RandomMove` returns a coordinate on
the board; its cell is `UNKNOWN` when one of the first `height * width` draws
differs from `e`, and it is `e` when all of them land on `e`. -/
theorem fallback_scenario (f : Field) (rand : Nat → Nat) (e : Coord) (hrect : Rectangular f)
    (hempty : typeAt f e = some CellType.EMPTY)
    (hothers : ∀ s cell, cellAt f s = some cell → s ≠ e → cell.type = CellType.UNKNOWN)
    (hmore : ∃ s, s ≠ e ∧ typeAt f s = some CellType.UNKNOWN) :
    GetCornerMines f [] = some [] ∧ GetFreeMoves f [] = some [] ∧
    ∃ move, RandomMove f rand = some move ∧ (∃ cell, cellAt f move = some cell) ∧
      ((∃ k, k < f.length * width f ∧ draw f rand k ≠ e) →
        typeAt f move = some CellType.UNKNOWN) ∧
      ((∀ k, k < f.length * width f → draw f rand k = e) → move = e) := by
  have hnonumber : ∀ c cell, cellAt f c = some cell → cell.type ≠ CellType.NUMBER := by
    intro c cell hcell hnum
    by_cases hc : c = e
    · subst hc
      obtain ⟨cell', hcell', ht⟩ := (typeAt_eq_some_iff f c _).1 hempty
      rw [hcell] at hcell'
      cases hcell'
      rw [hnum] at ht
      exact absurd ht (by decide)
    · have := hothers c cell hcell hc
      rw [hnum] at this
      exact absurd this (by decide)
  have h1 : (cells f).flatMap (cornerAdd f) = [] := by
    rw [List.eq_nil_iff_forall_not_mem]
    intro s hs
    rw [mem_cornerCollected_iff] at hs
    obtain ⟨c, cell, hcell, htype, -, -⟩ := hs
    exact hnonumber c cell hcell htype
  have h2 : (cells f).flatMap (freeAdd f) = [] := by
    rw [List.eq_nil_iff_forall_not_mem]
    intro s hs
    rw [mem_freeCollected_iff] at hs
    obtain ⟨c, cell, hcell, htype, -, -⟩ := hs
    exact hnonumber c cell hcell htype
  obtain ⟨ecell, hecell, -⟩ := (typeAt_eq_some_iff f e _).1 hempty
  have hbounds := (isCorrect_iff f e).1 ((isCorrect_iff_cellAt f hrect e).2 ⟨ecell, hecell⟩)
  have hheight : 1 ≤ f.length := by omega
  have hwidth : 1 ≤ width f := by omega
  refine ⟨by rw [GetCornerMines_rect f hrect, h1]; rfl,
    by rw [GetFreeMoves_rect f hrect, h2]; rfl, ?_⟩
  obtain ⟨move, hmove, hon, hcase⟩ := RandomMove_spec f rand hrect hheight hwidth
  refine ⟨move, hmove, hon, ?_, ?_⟩
  · rintro ⟨k, hk, hne⟩
    rcases hcase with ⟨j, -, hju, -, hmj⟩ | ⟨hnone, -⟩
    · rw [hmj]; exact hju
    · obtain ⟨cell, hcell⟩ := draw_on_board f rand hrect hheight hwidth k
      have ht := hothers _ cell hcell hne
      exact absurd ((typeAt_eq_some_iff f _ _).2 ⟨cell, hcell, ht⟩) (hnone k hk)
  · intro hall
    rcases hcase with ⟨j, hj, -, -, hmj⟩ | ⟨-, hlast⟩
    · rw [hmj]; exact hall j hj
    · rw [hlast]
      have hpos : 0 < f.length * width f := Nat.mul_pos hheight hwidth
      exact hall _ (by omega)

theorem fallback_scenario_witness :
    GetCornerMines boardEmptyUnknown [] = some [] ∧ GetFreeMoves boardEmptyUnknown [] = some [] ∧
    ∃ move, RandomMove boardEmptyUnknown randCount = some move ∧
      (∃ cell, cellAt boardEmptyUnknown move = some cell) ∧
      ((∃ k, k < boardEmptyUnknown.length * width boardEmptyUnknown ∧
          draw boardEmptyUnknown randCount k ≠ ⟨0, 0⟩) →
        typeAt boardEmptyUnknown move = some CellType.UNKNOWN) ∧
      ((∀ k, k < boardEmptyUnknown.length * width boardEmptyUnknown →
          draw boardEmptyUnknown randCount k = ⟨0, 0⟩) → move = ⟨0, 0⟩) :=
  fallback_scenario boardEmptyUnknown randCount ⟨0, 0⟩ (by decide) (by decide)
    ((forall_cellAt_iff boardEmptyUnknown _).2 (by decide)) ⟨⟨0, 1⟩, by decide, by decide⟩

/-! ## The concrete scenario -/

/-- C18, the concrete 3 by 3 scenario: for each of the eight positions `p`
around the centre, on the board with a `1` in the centre, a flag at `p` and
seven unrevealed cells, `GetFreeMoves` returns from an empty accumulator the
seven other neighbours of the centre, each once, which are the `UNKNOWN` cells
of the board, and `GetCornerMines` returns the empty list. -/
theorem concrete_scenario :
    ∀ p ∈ neighbours ⟨1, 1⟩,
      GetFreeMoves (scenarioBoard p) [] =
        some ((neighbours ⟨1, 1⟩).filter fun s => decide (s ≠ p)) ∧
      ((neighbours ⟨1, 1⟩).filter fun s => decide (s ≠ p)).length = 7 ∧
      (∀ s ∈ (neighbours ⟨1, 1⟩).filter fun s => decide (s ≠ p),
        typeAt (scenarioBoard p) s = some CellType.UNKNOWN) ∧
      ((cells (scenarioBoard p)).filter fun q =>
        decide (typeAt (scenarioBoard p) ⟨q.1, q.2⟩ = some CellType.UNKNOWN)).length = 7 ∧
      typeAt (scenarioBoard p) p = some CellType.FLAG ∧
      cellAt (scenarioBoard p) ⟨1, 1⟩ = some ⟨CellType.NUMBER, 1⟩ ∧
      GetCornerMines (scenarioBoard p) [] = some [] := by
  decide

theorem concrete_scenario_witness :
    GetFreeMoves (scenarioBoard ⟨0, 2⟩) [] =
      some [⟨0, 0⟩, ⟨0, 1⟩, ⟨1, 0⟩, ⟨1, 2⟩, ⟨2, 0⟩, ⟨2, 1⟩, ⟨2, 2⟩] ∧
    GetCornerMines (scenarioBoard ⟨0, 2⟩) [] = some [] :=
  ⟨(concrete_scenario ⟨0, 2⟩ (by decide)).1, (concrete_scenario ⟨0, 2⟩ (by decide)).2.2.2.2.2.2⟩

/-! ## The driver's order: certain mines, update, free moves -/

/-- C19, disjoint move sets in the driver's order: on a rectangular board,
`GetCornerMines` from an empty accumulator returns a list `mines`,
`UpdateMines` on `mines` is defined, and `GetFreeMoves` on the updated board
returns, from an empty accumulator, a list `moves`; every coordinate of `mines`
is a `FLAG` cell of the updated board, every coordinate of `moves` is an
`UNKNOWN` cell of it, and no coordinate is in both lists. -/
theorem disjoint_move_sets (f : Field) (hrect : Rectangular f) :
    ∃ mines updated moves, GetCornerMines f [] = some mines ∧
      UpdateMines f mines = some updated ∧ GetFreeMoves updated [] = some moves ∧
      (∀ s ∈ mines, typeAt updated s = some CellType.FLAG) ∧
      (∀ s ∈ moves, typeAt updated s = some CellType.UNKNOWN) ∧
      ∀ s, ¬ (s ∈ mines ∧ s ∈ moves) := by
  obtain ⟨mines, updated, hmines, hupd, -, -, -, hrect', hcells⟩ := cornerMines_update f hrect
  have hflag : ∀ s ∈ mines, typeAt updated s = some CellType.FLAG := by
    intro s hs
    unfold typeAt
    rw [hcells s, if_pos hs]
    rfl
  have hunk : ∀ s ∈ RemoveDuplicates ([] ++ (cells updated).flatMap (freeAdd updated)),
      typeAt updated s = some CellType.UNKNOWN := by
    intro s hs
    rw [mem_RemoveDuplicates, List.nil_append, mem_freeCollected_iff] at hs
    obtain ⟨c, cell, -, -, -, hs⟩ := hs
    exact ((mem_neighboursOfType_iff updated c s _).1 hs).2
  refine ⟨mines, updated, _, hmines, hupd, GetFreeMoves_rect updated hrect' [], hflag, hunk, ?_⟩
  rintro s ⟨h1, h2⟩
  have := hflag s h1
  rw [hunk s h2] at this
  exact absurd this (by decide)

theorem disjoint_move_sets_witness :
    (∃ mines updated moves, GetCornerMines boardFlagOneOne [] = some mines ∧
      UpdateMines boardFlagOneOne mines = some updated ∧
      GetFreeMoves updated [] = some moves ∧
      (∀ s ∈ mines, typeAt updated s = some CellType.FLAG) ∧
      (∀ s ∈ moves, typeAt updated s = some CellType.UNKNOWN) ∧
      ∀ s, ¬ (s ∈ mines ∧ s ∈ moves)) ∧
    GetCornerMines boardFlagOneOne [] = some [⟨0, 5⟩] ∧
    (UpdateMines boardFlagOneOne [⟨0, 5⟩]).bind (fun updated => GetFreeMoves updated [])
      = some [⟨0, 2⟩] :=
  ⟨disjoint_move_sets boardFlagOneOne (by decide), by decide, by decide⟩

/-- C20, the certain-mine pass reaches its fixed point in one step: on a
rectangular board, `UpdateMines` on the list returned by `GetCornerMines` from
an empty accumulator is defined (it never indexes outside the board), keeps the
number of rows and the length of every row, turns exactly the listed cells into
flags and leaves every other cell as it is, and `GetCornerMines` on the updated
board returns, from an empty accumulator, the empty list. -/
theorem corner_mines_fixed_point (f : Field) (hrect : Rectangular f) :
    ∃ mines updated, GetCornerMines f [] = some mines ∧
      UpdateMines f mines = some updated ∧
      updated.map List.length = f.map List.length ∧
      (∀ s, cellAt updated s = if s ∈ mines then some ⟨CellType.FLAG, 0⟩ else cellAt f s) ∧
      (∀ s ∈ mines, ∃ cell, cellAt f s = some cell) ∧
      GetCornerMines updated [] = some [] := by
  obtain ⟨mines, updated, hmines, hupd, hmem, hunknown, hshape, hrect', hcells⟩ :=
    cornerMines_update f hrect
  refine ⟨mines, updated, hmines, hupd, hshape, hcells, ?_, ?_⟩
  · intro s hs
    obtain ⟨cell, hcell, -⟩ := (typeAt_eq_some_iff f s _).1 (hunknown s hs)
    exact ⟨cell, hcell⟩
  · rw [GetCornerMines_rect updated hrect']
    have hnil : (cells updated).flatMap (cornerAdd updated) = [] := by
      rw [List.eq_nil_iff_forall_not_mem]
      intro s hs
      rw [mem_cornerCollected_iff] at hs
      obtain ⟨c, cell, hcell, htype, hcount, hsmem⟩ := hs
      have hcnot : c ∉ mines := by
        intro hc
        rw [hcells c, if_pos hc] at hcell
        rw [← Option.some.inj hcell] at htype
        exact absurd htype (by decide)
      have hcell' : cellAt f c = some cell := by
        rw [hcells c, if_neg hcnot] at hcell
        exact hcell
      have hsame : ((neighbours c).filter fun s =>
            decide (typeAt updated s = some CellType.UNKNOWN ∨
              typeAt updated s = some CellType.FLAG)) =
          ((neighbours c).filter fun s =>
            decide (typeAt f s = some CellType.UNKNOWN ∨ typeAt f s = some CellType.FLAG)) := by
        apply List.filter_congr
        intro t _
        rw [decide_eq_decide]
        exact unknown_or_flag_after_update f updated mines hunknown hcells t
      have hcount' : (((neighboursOfType f c CellType.UNKNOWN).length +
          (neighboursOfType f c CellType.FLAG).length : Nat) : Int) = cell.number := by
        rw [unknown_plus_flag_length f c, ← hsame, ← unknown_plus_flag_length updated c]
        exact hcount
      rw [mem_neighboursOfType_iff] at hsmem
      have hsnot : s ∉ mines := by
        intro hs
        have hflag : typeAt updated s = some CellType.FLAG := by
          unfold typeAt
          rw [hcells s, if_pos hs]
          rfl
        rw [hsmem.2] at hflag
        exact absurd hflag (by decide)
      have hsf : typeAt f s = some CellType.UNKNOWN := by
        have := hsmem.2
        unfold typeAt at this ⊢
        rw [hcells s, if_neg hsnot] at this
        exact this
      apply hsnot
      rw [hmem s, mem_cornerCollected_iff]
      exact ⟨c, cell, hcell', htype, hcount',
        (mem_neighboursOfType_iff f c s _).2 ⟨hsmem.1, hsf⟩⟩
    rw [hnil]
    rfl

theorem corner_mines_fixed_point_witness :
    (∃ mines updated, GetCornerMines boardFlagOneOne [] = some mines ∧
      UpdateMines boardFlagOneOne mines = some updated ∧
      updated.map List.length = boardFlagOneOne.map List.length ∧
      (∀ s, cellAt updated s =
        if s ∈ mines then some ⟨CellType.FLAG, 0⟩ else cellAt boardFlagOneOne s) ∧
      (∀ s ∈ mines, ∃ cell, cellAt boardFlagOneOne s = some cell) ∧
      GetCornerMines updated [] = some []) ∧
    (UpdateMines boardFlagOneOne [⟨0, 5⟩]).bind (fun updated => GetCornerMines updated [])
      = some [] :=
  ⟨corner_mines_fixed_point boardFlagOneOne (by decide), by decide⟩

end MinesweeperBot
